import Mathlib

/-!
Verification of the notesync synchronization engine.

This file gives a shallow embedding of the Go sources of nilszeilon/notesync:
the content store with its tombstone journal (`internal/storage`), the
client-side full reconciliation algorithm (`internal/sync/watcher.go`,
`fullSyncClient`), and the publish-eligibility predicate
(`internal/sync`, `internal/markdown/wikilinks.go`).

Modelling conventions:
  * timestamps are `Int` (Go `time.Time` as nanoseconds since the epoch;
    `t.After(u)` is the strict comparison `u < t`);
  * SHA-256 digests are opaque `String`s (Go hex digests); hashing the same
    bytes yields the same digest, so a file is represented directly by its
    digest;
  * relative slash-separated paths are `String`s; where directory structure
    matters (parent pruning, traversal checks) a path is its list of
    `/`-separated components (`List String`);
  * fallible operations return `Except String`; per-operation I/O failures
    are driven by explicit boolean oracles.
-/

set_option autoImplicit false

namespace NoteSync

/-! ## Paths and extensions (`internal/fileutil/fileutil.go`) -/

/-- Split a character list on a separator (the semantics of Go
`strings.Split`); structural recursion so it evaluates by `decide`. -/
def splitChars (sep : Char) : List Char → List (List Char)
  | [] => [[]]
  | c :: cs =>
    match splitChars sep cs with
    | [] => [[]]
    | g :: gs => if c = sep then [] :: g :: gs else (c :: g) :: gs

/-- Components of a slash-separated path. -/
def splitPath (p : String) : List String :=
  (splitChars (Char.ofNat 47) p.toList).map List.asString

/-- ASCII lowercasing of a string (the effect of Go `strings.ToLower` on the
ASCII extensions compared here). -/
def lowerAscii (s : String) : String :=
  (s.toList.map Char.toLower).asString

/-- Model of Go `filepath.Base` on normal slash paths: the last nonempty
component (redundant separators ignored), `"."` for the empty path. -/
def basename (p : String) : String :=
  (((splitPath p).filter (fun c => c ≠ "")).getLastD ".")

/-- Model of Go `filepath.Ext`: the suffix starting at the final dot of the
final path element, empty when that element has no dot. -/
def extOf (p : String) : String :=
  let parts := (splitChars (Char.ofNat 46) (basename p).toList).map List.asString
  if parts.length ≤ 1 then "" else "." ++ parts.getLastD ""

/-- `fileutil.SyncExts`: extensions the sync engine considers syncable. -/
def SyncExts : List String :=
  [".md", ".png", ".jpg", ".jpeg", ".gif", ".svg", ".webp"]

/-- `fileutil.ImageExts`. -/
def ImageExts : List String :=
  [".png", ".jpg", ".jpeg", ".gif", ".svg", ".webp"]

/-- The walk's extension filter: `fileutil.SyncExts[strings.ToLower(filepath.Ext(path))]`. -/
def isSyncableExt (p : String) : Bool := SyncExts.contains (lowerAscii (extOf p))

/-- `fileutil.IsImage`. -/
def isImage (p : String) : Bool := ImageExts.contains (lowerAscii (extOf p))

/-- `fileutil.IsMd`. -/
def isMd (p : String) : Bool := lowerAscii (extOf p) == ".md"

/-! ## Storage data model (`internal/storage`, part_007) -/

/-- `storage.FileInfo`: one remote listing record. -/
structure FileInfo where
  path : String
  hash : String
  size : Int
  modTime : Int
  deriving DecidableEq, Repr

/-- `storage.Tombstone`: a deletion journal entry. -/
structure Tombstone where
  path : String
  deletedAt : Int
  deriving DecidableEq, Repr

/-- A local file as seen by the reconciliation walk: relative path, the
SHA-256 digest `fileutil.HashFile` would compute, and the filesystem
modification time. -/
structure LocalFile where
  path : String
  hash : String
  modTime : Int
  deriving DecidableEq, Repr

/-- `storage.TombstoneTTL = 30 * 24 * time.Hour`, in nanoseconds. -/
def TombstoneTTL : Int := 30 * 24 * 60 * 60 * 1000000000

/-! ## Tombstone journal operations (`part_007`, lines 244-316) -/

/-- The in-place update loop of `Storage.AddTombstone`: find the first entry
with the given path, set its `DeletedAt`, and stop; `none` when no entry
matches. -/
def updateFirst : List Tombstone → String → Int → Option (List Tombstone)
  | [], _, _ => none
  | t :: rest, p, now =>
    if t.path == p then some ({ path := t.path, deletedAt := now } :: rest)
    else (updateFirst rest p now).map (fun r => t :: r)

/-- `Storage.AddTombstone`: update the first matching entry in place, or
append a fresh entry when the path has no tombstone yet. -/
def addTombstone (ts : List Tombstone) (p : String) (now : Int) : List Tombstone :=
  match updateFirst ts p now with
  | some r => r
  | none => ts ++ [{ path := p, deletedAt := now }]

/-- `Storage.RemoveTombstone`: drop every entry for the path. (The Go code
skips the journal write when nothing was dropped; the resulting journal
content is the same either way.) -/
def removeTombstone (ts : List Tombstone) (p : String) : List Tombstone :=
  ts.filter (fun t => t.path ≠ p)

/-- Result of `Storage.ListTombstones`: the returned entries, the journal as
persisted afterwards, and whether the journal file was rewritten. -/
structure ListTombstonesResult where
  returned : List Tombstone
  journal : List Tombstone
  rewritten : Bool
  deriving DecidableEq, Repr

/-- The entries `Storage.ListTombstones` keeps: `t.DeletedAt.After(cutoff)`
with `cutoff = now - TombstoneTTL`. -/
def activeTombstones (journal : List Tombstone) (now : Int) : List Tombstone :=
  journal.filter (fun t => now - TombstoneTTL < t.deletedAt)

/-- `Storage.ListTombstones`: keep entries with `DeletedAt.After(now - TTL)`;
when the count shrank, persist only the survivors. -/
def listTombstones (journal : List Tombstone) (now : Int) : ListTombstonesResult :=
  if (activeTombstones journal now).length ≠ journal.length then
    { returned := activeTombstones journal now
      journal := activeTombstones journal now
      rewritten := true }
  else
    { returned := activeTombstones journal now
      journal := journal
      rewritten := false }

/-- The Go-map view of a list (`m[key x] = x` in insertion order, later
entries overwriting earlier ones). -/
def goMapLookup {α : Type} (key : α → String) (l : List α) (p : String) : Option α :=
  l.foldl (fun acc x => if key x == p then some x else acc) none

/-- The Go-map view of a tombstone list (`tombstoneMap[t.Path] = t`). -/
def tombLookup (ts : List Tombstone) (p : String) : Option Tombstone :=
  goMapLookup Tombstone.path ts p

/-! ### Journal lemmas -/

theorem updateFirst_paths {p : String} {now : Int} :
    ∀ {ts r : List Tombstone}, updateFirst ts p now = some r →
      r.map Tombstone.path = ts.map Tombstone.path
  | [], r, h => by simp [updateFirst] at h
  | t :: rest, r, h => by
    cases hp : t.path == p with
    | true =>
      simp only [updateFirst, hp, if_true] at h
      rw [← Option.some_inj.mp h]
      simp
    | false =>
      simp [updateFirst, hp, Option.map_eq_some'] at h
      rcases h with ⟨r0, hr0, hr⟩
      subst hr
      simp [updateFirst_paths hr0]

theorem updateFirst_eq_none {p : String} {now : Int} :
    ∀ {ts : List Tombstone}, updateFirst ts p now = none →
      p ∉ ts.map Tombstone.path
  | [], _ => by simp
  | t :: rest, h => by
    cases hp : t.path == p with
    | true => simp [updateFirst, hp] at h
    | false =>
      simp only [updateFirst, hp, Bool.false_eq_true, if_false,
        Option.map_eq_none'] at h
      have hrest := updateFirst_eq_none h
      simp only [List.map_cons, List.mem_cons]
      rintro (he | hm)
      · rw [beq_iff_eq.mpr he.symm] at hp
        exact Bool.true_eq_false.mp hp
      · exact hrest hm

theorem addTombstone_paths_of_mem {ts : List Tombstone} {p : String} (now : Int)
    (hmem : p ∈ ts.map Tombstone.path) :
    (addTombstone ts p now).map Tombstone.path = ts.map Tombstone.path := by
  unfold addTombstone
  cases hu : updateFirst ts p now with
  | some r => exact updateFirst_paths hu
  | none => exact absurd hmem (updateFirst_eq_none hu)

theorem addTombstone_nodup {ts : List Tombstone} {p : String} (now : Int)
    (h : (ts.map Tombstone.path).Nodup) :
    ((addTombstone ts p now).map Tombstone.path).Nodup := by
  unfold addTombstone
  cases hu : updateFirst ts p now with
  | some r => rw [updateFirst_paths hu]; exact h
  | none =>
    have hnm := updateFirst_eq_none hu
    simp only [List.map_append, List.map_cons, List.map_nil]
    refine List.Nodup.append h (List.nodup_singleton p) ?_
    intro q hq hq'
    simp only [List.mem_singleton] at hq'
    subst hq'
    exact hnm hq

theorem removeTombstone_nodup {ts : List Tombstone} {p : String}
    (h : (ts.map Tombstone.path).Nodup) :
    ((removeTombstone ts p).map Tombstone.path).Nodup := by
  have hsub : List.Sublist ((removeTombstone ts p).map Tombstone.path)
      (ts.map Tombstone.path) :=
    List.Sublist.map Tombstone.path (List.filter_sublist ts)
  exact List.Sublist.nodup hsub h

theorem listTombstones_journal_nodup {journal : List Tombstone} {now : Int}
    (h : (journal.map Tombstone.path).Nodup) :
    (((listTombstones journal now).journal).map Tombstone.path).Nodup := by
  unfold listTombstones
  split
  · exact List.Sublist.nodup
      (List.Sublist.map Tombstone.path (List.filter_sublist journal)) h
  · exact h

theorem updateFirst_mem {p : String} {now : Int} :
    ∀ {ts r : List Tombstone}, updateFirst ts p now = some r →
      ∃ t, t ∈ r ∧ t.path = p ∧ t.deletedAt = now
  | [], r, h => by simp [updateFirst] at h
  | t :: rest, r, h => by
    cases hp : t.path == p with
    | true =>
      simp only [updateFirst, hp, if_true] at h
      rw [← Option.some_inj.mp h]
      exact ⟨{ path := t.path, deletedAt := now }, by simp, eq_of_beq hp, rfl⟩
    | false =>
      simp [updateFirst, hp, Option.map_eq_some'] at h
      rcases h with ⟨r0, hr0, hr⟩
      subst hr
      obtain ⟨t0, ht0, hp0, hd0⟩ := updateFirst_mem hr0
      exact ⟨t0, List.mem_cons_of_mem _ ht0, hp0, hd0⟩

/-! ### Claims C7 and C9 -/

/-- A client-visible operation on the tombstone journal. -/
inductive TombOp where
  | add (p : String) (now : Int)
  | remove (p : String)
  | list (now : Int)

/-- Effect of one journal operation on the persisted journal. -/
def applyTombOp (j : List Tombstone) : TombOp → List Tombstone
  | .add p now => addTombstone j p now
  | .remove p => removeTombstone j p
  | .list now => (listTombstones j now).journal

/-- Effect of a sequence of journal operations. -/
def applyTombOps (j : List Tombstone) (ops : List TombOp) : List Tombstone :=
  ops.foldl applyTombOp j

theorem applyTombOps_nodup {j : List Tombstone}
    (h : (j.map Tombstone.path).Nodup) (ops : List TombOp) :
    ((applyTombOps j ops).map Tombstone.path).Nodup := by
  induction ops generalizing j with
  | nil => exact h
  | cons op ops ih =>
    have hstep : ((applyTombOp j op).map Tombstone.path).Nodup := by
      cases op with
      | add p now => exact addTombstone_nodup now h
      | remove p => exact removeTombstone_nodup h
      | list now => exact listTombstones_journal_nodup h
    exact ih hstep

/-- C7: `listTombstones` returns exactly the journal entries still inside the
30-day retention window (`deletedAt` strictly after `now - TombstoneTTL`),
and rewrites the persisted journal to the surviving entries exactly when at
least one entry has expired. -/
theorem c7_listTombstones_prunes (journal : List Tombstone) (now : Int) :
    (∀ t, t ∈ (listTombstones journal now).returned ↔
        t ∈ journal ∧ now - TombstoneTTL < t.deletedAt)
    ∧ ((∃ t ∈ journal, t.deletedAt ≤ now - TombstoneTTL) →
        (listTombstones journal now).rewritten = true ∧
        (listTombstones journal now).journal = (listTombstones journal now).returned)
    ∧ ((∀ t ∈ journal, now - TombstoneTTL < t.deletedAt) →
        (listTombstones journal now).rewritten = false ∧
        (listTombstones journal now).journal = journal) := by
  refine ⟨?_, ?_, ?_⟩
  · intro t
    unfold listTombstones
    split <;> simp [activeTombstones, List.mem_filter]
  · rintro ⟨t, htm, hexp⟩
    have hlt : (activeTombstones journal now).length < journal.length := by
      refine List.length_filter_lt_length_iff_exists.mpr ⟨t, htm, ?_⟩
      simp only [decide_eq_true_eq, not_lt]
      exact hexp
    have hne : (activeTombstones journal now).length ≠ journal.length := Nat.ne_of_lt hlt
    unfold listTombstones
    simp [hne]
  · intro hall
    have heq : activeTombstones journal now = journal := by
      refine List.filter_eq_self.mpr ?_
      intro t htm
      simpa using hall t htm
    unfold listTombstones
    simp [heq]

/-- Closed witness for C7 at a concrete journal: one expired entry forces a
rewrite dropping it. -/
theorem c7_witness :
    (listTombstones [{ path := "a.md", deletedAt := 0 }] (TombstoneTTL + 1)).rewritten = true ∧
    (listTombstones [{ path := "a.md", deletedAt := 0 }] (TombstoneTTL + 1)).journal =
      (listTombstones [{ path := "a.md", deletedAt := 0 }] (TombstoneTTL + 1)).returned :=
  (c7_listTombstones_prunes [{ path := "a.md", deletedAt := 0 }] (TombstoneTTL + 1)).2.1
    ⟨{ path := "a.md", deletedAt := 0 }, by simp, by decide⟩

/-- C9: starting from the empty journal, any sequence of add/remove/list
operations keeps at most one entry per path; re-deleting a tombstoned path
rewrites the entry in place (the path multiset is unchanged and the entry
carries the new deletion time) instead of appending a duplicate. -/
theorem c9_one_tombstone_per_path :
    (∀ ops : List TombOp, ((applyTombOps [] ops).map Tombstone.path).Nodup)
    ∧ (∀ (j : List Tombstone) (p : String) (now : Int),
        p ∈ j.map Tombstone.path →
        (addTombstone j p now).map Tombstone.path = j.map Tombstone.path
        ∧ ∃ t, t ∈ addTombstone j p now ∧ t.path = p ∧ t.deletedAt = now) := by
  constructor
  · intro ops
    exact applyTombOps_nodup (by simp) ops
  · intro j p now hmem
    refine ⟨addTombstone_paths_of_mem now hmem, ?_⟩
    unfold addTombstone
    cases hu : updateFirst j p now with
    | some r => exact updateFirst_mem hu
    | none => exact absurd hmem (updateFirst_eq_none hu)

/-- Closed witness for C9: re-adding a tombstone for an already-tombstoned
path keeps one entry and refreshes its time. -/
theorem c9_witness :
    (addTombstone [{ path := "a.md", deletedAt := 5 }] "a.md" 9).map Tombstone.path = ["a.md"]
    ∧ ∃ t, t ∈ addTombstone [{ path := "a.md", deletedAt := 5 }] "a.md" 9
        ∧ t.path = "a.md" ∧ t.deletedAt = 9 :=
  c9_one_tombstone_per_path.2 [{ path := "a.md", deletedAt := 5 }] "a.md" 9 (by decide)

/-! ## Go-map lookup lemmas -/

theorem goMapLookup_of_no_match {α : Type} (key : α → String) {l : List α}
    {p : String} (h : ∀ x ∈ l, ¬ key x = p) (acc : Option α) :
    l.foldl (fun acc x => if key x == p then some x else acc) acc = acc := by
  induction l generalizing acc with
  | nil => rfl
  | cons x rest ih =>
    have hx : (key x == p) = false := by
      simpa using h x (List.mem_cons_self x rest)
    simp only [List.foldl_cons, hx, Bool.false_eq_true, if_false]
    exact ih (fun y hy => h y (List.mem_cons_of_mem x hy)) acc

/-- Under distinct keys, the Go-map lookup agrees with `List.find?`. -/
theorem goMapLookup_eq_find {α : Type} (key : α → String) {l : List α}
    {p : String} (hnd : (l.map key).Nodup) :
    goMapLookup key l p = l.find? (fun x => key x == p) := by
  induction l with
  | nil => rfl
  | cons x rest ih =>
    rcases List.nodup_cons.mp hnd with ⟨hnx, hnr⟩
    cases hx : key x == p with
    | true =>
      have hxp : key x = p := eq_of_beq hx
      have hnone : ∀ y ∈ rest, ¬ key y = p := by
        intro y hy he
        exact hnx (by rw [← hxp] at he; exact he ▸ List.mem_map_of_mem key hy)
      unfold goMapLookup
      simp only [List.foldl_cons, hx, if_true]
      rw [goMapLookup_of_no_match key hnone]
      simp [List.find?_cons, hx]
    | false =>
      unfold goMapLookup at ih ⊢
      simp only [List.foldl_cons, hx, Bool.false_eq_true, if_false]
      rw [ih hnr]
      simp [List.find?_cons, hx]

theorem goMapLookup_eq_none {α : Type} (key : α → String) {l : List α}
    {p : String} (h : p ∉ l.map key) :
    goMapLookup key l p = none := by
  unfold goMapLookup
  refine goMapLookup_of_no_match key ?_ none
  intro x hx he
  exact h (he ▸ List.mem_map_of_mem key hx)

/-! ## Reconciliation engine (`internal/sync/watcher.go`, `fullSyncClient`) -/

/-- One remote-effecting or local-effecting action attempted by a full
reconciliation pass. -/
inductive Action where
  | upload (p : String)
  | download (p : String)
  | deleteLocal (p : String)
  | deleteRemote (p : String)
  deriving DecidableEq, Repr

/-- The path an action concerns. -/
def Action.pathOf : Action → String
  | .upload p => p
  | .download p => p
  | .deleteLocal p => p
  | .deleteRemote p => p

/-- Per-operation I/O failure oracles: which paths fail to hash, upload,
download, be removed locally, or be deleted remotely. -/
structure FailureOracle where
  hashFails : String → Bool
  uploadFails : String → Bool
  downloadFails : String → Bool
  removeLocalFails : String → Bool
  deleteRemoteFails : String → Bool

/-- The oracle under which every I/O operation succeeds. -/
def noFailures : FailureOracle :=
  { hashFails := fun _ => false
    uploadFails := fun _ => false
    downloadFails := fun _ => false
    removeLocalFails := fun _ => false
    deleteRemoteFails := fun _ => false }

/-- `remoteMap[f.Path] = f` built by insertion over the listing. -/
def remoteLookup (remote : List FileInfo) (p : String) : Option FileInfo :=
  goMapLookup FileInfo.path remote p

/-- Whether the walk keeps a local file: syncable extension, and (publish
target only) the eligibility filter. -/
def eligible (filter : Option (String → Bool)) (f : LocalFile) : Bool :=
  isSyncableExt f.path &&
    (match filter with
     | some flt => flt f.path
     | none => true)

/-- The per-file body of the `filepath.Walk` callback in `fullSyncClient`
(watcher.go lines 110-173), for an eligible file. Errors abort the walk, as
`return fmt.Errorf(...)` does in Go; the local `os.Remove` failure in the
tombstone branch is only logged. -/
def processFile (filter : Option (String → Bool)) (tombs : Option (List Tombstone))
    (remote : List FileInfo) (fo : FailureOracle) (f : LocalFile) :
    Except String (List Action) :=
  if fo.hashFails f.path then .error ("hash local file " ++ f.path)
  else
    match remoteLookup remote f.path with
    | none =>
      match filter, tombs with
      | none, some ts =>
        match tombLookup ts f.path with
        | some t =>
          if f.modTime < t.deletedAt then .ok [.deleteLocal f.path]
          else if fo.uploadFails f.path then .error ("upload " ++ f.path)
          else .ok [.upload f.path]
        | none =>
          if fo.uploadFails f.path then .error ("upload " ++ f.path)
          else .ok [.upload f.path]
      | _, _ =>
        if fo.uploadFails f.path then .error ("upload " ++ f.path)
        else .ok [.upload f.path]
    | some rf =>
      if rf.hash ≠ f.hash then
        match filter with
        | some _ =>
          if fo.uploadFails f.path then .error ("upload " ++ f.path)
          else .ok [.upload f.path]
        | none =>
          if rf.modTime < f.modTime then
            if fo.uploadFails f.path then .error ("upload " ++ f.path)
            else .ok [.upload f.path]
          else if fo.downloadFails f.path then .error ("download " ++ f.path)
          else .ok [.download f.path]
      else .ok []

/-- The walk over the local tree: skips ineligible files, collects the
`localFiles` set and the attempted actions in walk order, aborting on the
first per-file error. -/
def walkLocal (filter : Option (String → Bool)) (tombs : Option (List Tombstone))
    (remote : List FileInfo) (fo : FailureOracle) :
    List LocalFile → Except String (List String × List Action)
  | [] => .ok ([], [])
  | f :: rest =>
    if eligible filter f then
      match processFile filter tombs remote fo f with
      | .error e => .error e
      | .ok acts =>
        match walkLocal filter tombs remote fo rest with
        | .error e => .error e
        | .ok (seen, as) => .ok (f.path :: seen, acts ++ as)
    else walkLocal filter tombs remote fo rest

/-- The after-walk phase (watcher.go lines 179-204): the publish target
deletes every remote path not seen locally; the private target, unless in
push-only mode, downloads every syncable remote path not seen locally.
Failures here are logged and the loop continues. -/
def postWalk (isPublish : Bool) (pushOnly : Bool) (remote : List FileInfo)
    (seen : List String) : List Action :=
  if isPublish then
    (remote.filter (fun rf => !seen.contains rf.path)).map
      (fun rf => Action.deleteRemote rf.path)
  else if !pushOnly then
    (remote.filter (fun rf => !seen.contains rf.path && isSyncableExt rf.path)).map
      (fun rf => Action.download rf.path)
  else []

/-- `fullSyncClient`: the full reconciliation pass against one target.
`filter = none` is the private (bidirectional) target; `tombs` is the
tombstone fetch result (`none` when the fetch failed, degraded to "no
tombstones"; the publish target never fetches tombstones). Returns the
actions attempted, or the error that aborted the pass. -/
def fullSyncClient (dirFiles : List LocalFile) (remote : List FileInfo)
    (tombs : Option (List Tombstone)) (filter : Option (String → Bool))
    (pushOnly : Bool) (fo : FailureOracle) : Except String (List Action) :=
  match walkLocal filter tombs remote fo dirFiles with
  | .error e => .error e
  | .ok (seen, acts) => .ok (acts ++ postWalk filter.isSome pushOnly remote seen)

/-! ### Total (failure-free) semantics and the bridge to it -/

/-- The action(s) `processFile` settles on when no I/O operation fails. -/
def fileActs (filter : Option (String → Bool)) (tombs : Option (List Tombstone))
    (remote : List FileInfo) (f : LocalFile) : List Action :=
  match remoteLookup remote f.path with
  | none =>
    match filter, tombs with
    | none, some ts =>
      match tombLookup ts f.path with
      | some t =>
        if f.modTime < t.deletedAt then [.deleteLocal f.path]
        else [.upload f.path]
      | none => [.upload f.path]
    | _, _ => [.upload f.path]
  | some rf =>
    if rf.hash ≠ f.hash then
      match filter with
      | some _ => [.upload f.path]
      | none =>
        if rf.modTime < f.modTime then [.upload f.path]
        else [.download f.path]
    else []

/-- The `localFiles` set collected by a completed walk, in walk order. -/
def seenPaths (filter : Option (String → Bool)) (dirFiles : List LocalFile) :
    List String :=
  (dirFiles.filter (eligible filter)).map LocalFile.path

/-- The actions of a completed walk, in walk order. -/
def walkActs (filter : Option (String → Bool)) (tombs : Option (List Tombstone))
    (remote : List FileInfo) (dirFiles : List LocalFile) : List Action :=
  (dirFiles.filter (eligible filter)).flatMap (fileActs filter tombs remote)

/-- The full action list of a failure-free reconciliation pass. -/
def runSync (dirFiles : List LocalFile) (remote : List FileInfo)
    (tombs : Option (List Tombstone)) (filter : Option (String → Bool))
    (pushOnly : Bool) : List Action :=
  walkActs filter tombs remote dirFiles ++
    postWalk filter.isSome pushOnly remote (seenPaths filter dirFiles)

/-- An oracle under which no operation that could abort the walk fails
(hashing, uploads, downloads); local removals and remote deletes may still
fail — the code only logs those. -/
def walkSafe (fo : FailureOracle) : Prop :=
  fo.hashFails = (fun _ => false) ∧ fo.uploadFails = (fun _ => false) ∧
    fo.downloadFails = (fun _ => false)

theorem walkSafe_noFailures : walkSafe noFailures := ⟨rfl, rfl, rfl⟩

theorem processFile_walkSafe {fo : FailureOracle} (hfo : walkSafe fo)
    (filter : Option (String → Bool)) (tombs : Option (List Tombstone))
    (remote : List FileInfo) (f : LocalFile) :
    processFile filter tombs remote fo f =
      .ok (fileActs filter tombs remote f) := by
  obtain ⟨h1, h2, h3⟩ := hfo
  unfold processFile fileActs
  simp only [h1, h2, h3, Bool.false_eq_true, if_false]
  repeat' split
  all_goals rfl

theorem walkLocal_walkSafe {fo : FailureOracle} (hfo : walkSafe fo)
    (filter : Option (String → Bool)) (tombs : Option (List Tombstone))
    (remote : List FileInfo) :
    ∀ dirFiles : List LocalFile,
      walkLocal filter tombs remote fo dirFiles =
        .ok (seenPaths filter dirFiles, walkActs filter tombs remote dirFiles)
  | [] => rfl
  | f :: rest => by
    unfold walkLocal
    cases he : eligible filter f with
    | true =>
      simp only [he, if_true, processFile_walkSafe hfo,
        walkLocal_walkSafe hfo filter tombs remote rest]
      simp [seenPaths, walkActs, List.filter_cons, he]
    | false =>
      simp only [he, Bool.false_eq_true, if_false,
        walkLocal_walkSafe hfo filter tombs remote rest]
      simp [seenPaths, walkActs, List.filter_cons, he]

/-- When nothing that can abort the walk fails, the pass completes and
returns `runSync`, whatever the local-removal and remote-delete oracles do. -/
theorem fullSyncClient_walkSafe {fo : FailureOracle} (hfo : walkSafe fo)
    (dirFiles : List LocalFile) (remote : List FileInfo)
    (tombs : Option (List Tombstone)) (filter : Option (String → Bool))
    (pushOnly : Bool) :
    fullSyncClient dirFiles remote tombs filter pushOnly fo =
      .ok (runSync dirFiles remote tombs filter pushOnly) := by
  unfold fullSyncClient runSync
  rw [walkLocal_walkSafe hfo]

/-- With no I/O failures the pass completes and returns `runSync`. -/
theorem fullSyncClient_noFailures (dirFiles : List LocalFile)
    (remote : List FileInfo) (tombs : Option (List Tombstone))
    (filter : Option (String → Bool)) (pushOnly : Bool) :
    fullSyncClient dirFiles remote tombs filter pushOnly noFailures =
      .ok (runSync dirFiles remote tombs filter pushOnly) :=
  fullSyncClient_walkSafe walkSafe_noFailures dirFiles remote tombs filter pushOnly

/-- A per-file error in the walk aborts the whole walk, as
`return fmt.Errorf(...)` inside a `filepath.Walk` callback does. -/
theorem walkLocal_error_of_processFile_error {filter : Option (String → Bool)}
    {tombs : Option (List Tombstone)} {remote : List FileInfo}
    {fo : FailureOracle} {f : LocalFile} {e : String} :
    ∀ {dirFiles : List LocalFile}, f ∈ dirFiles → eligible filter f = true →
      processFile filter tombs remote fo f = .error e →
      ∃ e', walkLocal filter tombs remote fo dirFiles = .error e'
  | [], hf, _, _ => absurd hf (List.not_mem_nil f)
  | g :: rest, hf, helig, herr => by
    unfold walkLocal
    cases heg : eligible filter g with
    | true =>
      simp only [heg, if_true]
      cases hpg : processFile filter tombs remote fo g with
      | error e'' => exact ⟨e'', rfl⟩
      | ok acts =>
        rcases List.mem_cons.mp hf with hfg | hfr
        · subst hfg
          rw [herr] at hpg
          exact absurd hpg (by simp)
        · obtain ⟨e', hw⟩ :=
            walkLocal_error_of_processFile_error hfr helig herr
          rw [hw]
          exact ⟨e', rfl⟩
    | false =>
      simp only [heg, Bool.false_eq_true, if_false]
      rcases List.mem_cons.mp hf with hfg | hfr
      · subst hfg
        rw [helig] at heg
        exact absurd heg (by simp)
      · exact walkLocal_error_of_processFile_error hfr helig herr

/-! ### Membership lemmas on the action trace -/

theorem fileActs_pathOf {filter : Option (String → Bool)}
    {tombs : Option (List Tombstone)} {remote : List FileInfo} {f : LocalFile}
    {a : Action} (ha : a ∈ fileActs filter tombs remote f) :
    a.pathOf = f.path := by
  unfold fileActs at ha
  repeat' split at ha
  all_goals simp_all [Action.pathOf]

theorem mem_walkActs {filter : Option (String → Bool)}
    {tombs : Option (List Tombstone)} {remote : List FileInfo}
    {dirFiles : List LocalFile} {a : Action} :
    a ∈ walkActs filter tombs remote dirFiles ↔
      ∃ f, f ∈ dirFiles ∧ eligible filter f = true ∧
        a ∈ fileActs filter tombs remote f := by
  unfold walkActs
  simp [List.mem_flatMap, List.mem_filter, and_assoc]

theorem mem_postWalk {isPublish pushOnly : Bool} {remote : List FileInfo}
    {seen : List String} {a : Action} :
    a ∈ postWalk isPublish pushOnly remote seen ↔
      (isPublish = true ∧ ∃ rf, rf ∈ remote ∧ rf.path ∉ seen ∧
        Action.deleteRemote rf.path = a) ∨
      (isPublish = false ∧ pushOnly = false ∧ ∃ rf, rf ∈ remote ∧ rf.path ∉ seen ∧
        isSyncableExt rf.path = true ∧ Action.download rf.path = a) := by
  unfold postWalk
  cases isPublish <;> cases pushOnly <;>
    simp [List.mem_filter, List.mem_map, List.elem_iff, and_assoc]

theorem postWalk_path_not_seen {isPublish pushOnly : Bool} {remote : List FileInfo}
    {seen : List String} {a : Action}
    (ha : a ∈ postWalk isPublish pushOnly remote seen) : a.pathOf ∉ seen := by
  rcases mem_postWalk.mp ha with ⟨_, rf, _, hns, he⟩ | ⟨_, _, rf, _, hns, _, he⟩ <;>
    rw [← he] <;> simpa [Action.pathOf] using hns

/-- On a path-nodup file list, a path determines the file. -/
theorem localFile_path_inj {dirFiles : List LocalFile}
    (hnd : (dirFiles.map LocalFile.path).Nodup) {f g : LocalFile}
    (hf : f ∈ dirFiles) (hg : g ∈ dirFiles) (he : f.path = g.path) : f = g :=
  List.inj_on_of_nodup_map hnd hf hg he

theorem mem_seenPaths {filter : Option (String → Bool)}
    {dirFiles : List LocalFile} {p : String} :
    p ∈ seenPaths filter dirFiles ↔
      ∃ f, f ∈ dirFiles ∧ eligible filter f = true ∧ f.path = p := by
  unfold seenPaths
  simp [List.mem_map, List.mem_filter, and_assoc]

/-- For an action on the path of an eligible local file, membership in the
full trace is membership in that file's own actions: other walked files have
other paths, and the post-walk phase only touches unseen paths. -/
theorem mem_runSync_iff {dirFiles : List LocalFile} {remote : List FileInfo}
    {tombs : Option (List Tombstone)} {filter : Option (String → Bool)}
    {pushOnly : Bool} {f : LocalFile}
    (hnd : (dirFiles.map LocalFile.path).Nodup)
    (hf : f ∈ dirFiles) (helig : eligible filter f = true)
    (a : Action) (hap : a.pathOf = f.path) :
    a ∈ runSync dirFiles remote tombs filter pushOnly ↔
      a ∈ fileActs filter tombs remote f := by
  have hseen : f.path ∈ seenPaths filter dirFiles :=
    mem_seenPaths.mpr ⟨f, hf, helig, rfl⟩
  unfold runSync
  rw [List.mem_append]
  constructor
  · rintro (hw | hp)
    · rcases mem_walkActs.mp hw with ⟨g, hg, hge, hga⟩
      have hgf : g = f :=
        localFile_path_inj hnd hg hf ((fileActs_pathOf hga).symm.trans hap)
      exact hgf ▸ hga
    · exact absurd (hap ▸ postWalk_path_not_seen hp) (by simp [hseen])
  · intro hfa
    exact Or.inl (mem_walkActs.mpr ⟨f, hf, helig, hfa⟩)

/-! ### Claims C2 and C5 -/

/-- C2: for a path present on both sides with differing hashes, the private
full reconciliation uploads exactly when the local modification time is
strictly newer, and otherwise (including equal timestamps) downloads. -/
theorem c2_conflict_resolution {dirFiles : List LocalFile} {remote : List FileInfo}
    {tombs : Option (List Tombstone)} {pushOnly : Bool} {f : LocalFile}
    {rf : FileInfo} {acts : List Action}
    (hnd : (dirFiles.map LocalFile.path).Nodup)
    (hf : f ∈ dirFiles) (hsync : isSyncableExt f.path = true)
    (hrf : remoteLookup remote f.path = some rf)
    (hdiff : rf.hash ≠ f.hash)
    (hrun : fullSyncClient dirFiles remote tombs none pushOnly noFailures = .ok acts) :
    (rf.modTime < f.modTime →
      Action.upload f.path ∈ acts ∧ Action.download f.path ∉ acts) ∧
    (f.modTime ≤ rf.modTime →
      Action.download f.path ∈ acts ∧ Action.upload f.path ∉ acts) := by
  rw [fullSyncClient_noFailures] at hrun
  have hacts : acts = runSync dirFiles remote tombs none pushOnly :=
    (Except.ok.inj hrun).symm
  subst hacts
  have helig : eligible none f = true := by simp [eligible, hsync]
  have hseen : f.path ∈ seenPaths none dirFiles :=
    mem_seenPaths.mpr ⟨f, hf, helig, rfl⟩
  have hwalk_only : ∀ a : Action, a.pathOf = f.path →
      (a ∈ runSync dirFiles remote tombs none pushOnly ↔
        a ∈ fileActs none tombs remote f) := by
    intro a hap
    unfold runSync
    rw [List.mem_append]
    constructor
    · rintro (hw | hp)
      · rcases mem_walkActs.mp hw with ⟨g, hg, hge, hga⟩
        have : g = f :=
          localFile_path_inj hnd hg hf ((fileActs_pathOf hga).symm.trans hap)
        exact this ▸ hga
      · exact absurd (hap ▸ postWalk_path_not_seen hp) (by simp [hseen])
    · intro hfa
      exact Or.inl (mem_walkActs.mpr ⟨f, hf, helig, hfa⟩)
  constructor
  · intro hlt
    have hfa : fileActs none tombs remote f = [Action.upload f.path] := by
      unfold fileActs
      rw [hrf]
      simp [hdiff, hlt]
    constructor
    · exact (hwalk_only (Action.upload f.path) rfl).mpr (by rw [hfa]; simp)
    · intro hdl
      have hmem := (hwalk_only (Action.download f.path) rfl).mp hdl
      rw [hfa] at hmem
      simp at hmem
  · intro hle
    have hnlt : ¬ rf.modTime < f.modTime := not_lt.mpr hle
    have hfa : fileActs none tombs remote f = [Action.download f.path] := by
      unfold fileActs
      rw [hrf]
      simp [hdiff, hnlt]
    constructor
    · exact (hwalk_only (Action.download f.path) rfl).mpr (by rw [hfa]; simp)
    · intro hup
      have hmem := (hwalk_only (Action.upload f.path) rfl).mp hup
      rw [hfa] at hmem
      simp at hmem

/-- Closed witness for C2: local strictly newer wins (upload), at a concrete
one-file state. -/
theorem c2_witness :
    Action.upload "a.md" ∈ [Action.upload "a.md"] ∧
    Action.download "a.md" ∉ [Action.upload "a.md"] :=
  (@c2_conflict_resolution
    [{ path := "a.md", hash := "h1", modTime := 5 }]
    [{ path := "a.md", hash := "h2", size := 1, modTime := 3 }]
    none false
    { path := "a.md", hash := "h1", modTime := 5 }
    { path := "a.md", hash := "h2", size := 1, modTime := 3 }
    [Action.upload "a.md"]
    (by decide) (by decide) (by decide) (by decide) (by decide) (by rfl)).1
    (by decide)

/-- C5: in push-only mode against the private target, remote-only paths are
never downloaded, while a path present on both sides with a differing hash
and a local modification time not strictly newer is still downloaded. -/
theorem c5_push_only {dirFiles : List LocalFile} {remote : List FileInfo}
    {tombs : Option (List Tombstone)} {acts : List Action}
    (hrun : fullSyncClient dirFiles remote tombs none true noFailures = .ok acts) :
    (∀ p, p ∉ dirFiles.map LocalFile.path → Action.download p ∉ acts) ∧
    (∀ (f : LocalFile) (rf : FileInfo), f ∈ dirFiles →
      isSyncableExt f.path = true →
      remoteLookup remote f.path = some rf → rf.hash ≠ f.hash →
      ¬ rf.modTime < f.modTime → Action.download f.path ∈ acts) := by
  rw [fullSyncClient_noFailures] at hrun
  have hacts : acts = runSync dirFiles remote tombs none true :=
    (Except.ok.inj hrun).symm
  subst hacts
  constructor
  · intro p hnp hdl
    unfold runSync at hdl
    rw [List.mem_append] at hdl
    rcases hdl with hw | hp
    · rcases mem_walkActs.mp hw with ⟨g, hg, _, hga⟩
      have hgp : p = g.path := by
        simpa [Action.pathOf] using fileActs_pathOf hga
      exact hnp (hgp ▸ List.mem_map_of_mem LocalFile.path hg)
    · rcases mem_postWalk.mp hp with ⟨hfalse, _⟩ | ⟨_, hpush, _⟩
      · simp at hfalse
      · simp at hpush
  · intro f rf hf hsync hrf hdiff hnlt
    have helig : eligible none f = true := by simp [eligible, hsync]
    have hfa : fileActs none tombs remote f = [Action.download f.path] := by
      unfold fileActs
      rw [hrf]
      simp [hdiff, hnlt]
    unfold runSync
    rw [List.mem_append]
    exact Or.inl (mem_walkActs.mpr ⟨f, hf, helig, by rw [hfa]; simp⟩)

/-- Closed witness for C5: a remote-only path is not downloaded while a
stale shared path is, at a concrete two-file state. -/
theorem c5_witness :
    Action.download "new.md" ∉
      [Action.download "a.md"] ∧
    Action.download "a.md" ∈ [Action.download "a.md"] :=
  have h := @c5_push_only
    [{ path := "a.md", hash := "h1", modTime := 3 }]
    [{ path := "a.md", hash := "h2", size := 1, modTime := 5 },
     { path := "new.md", hash := "h3", size := 1, modTime := 7 }]
    none
    [Action.download "a.md"]
    (by rfl)
  ⟨h.1 "new.md" (by decide),
   h.2 { path := "a.md", hash := "h1", modTime := 3 }
     { path := "a.md", hash := "h2", size := 1, modTime := 5 }
     (by decide) (by decide) (by decide) (by decide) (by decide)⟩

/-! ### Local directory pruning (watcher.go lines 126-133) and claim C1 -/

/-- The chain of directories a `for dir != root { os.Remove(dir); dir =
filepath.Dir(dir) }` loop visits starting at `d`: the directory itself, then
each parent, stopping before the root. Both the watcher's local pruning
(root = sync dir, modelled as `[]` with relative components) and
`Storage.Delete`'s pruning (root = the data dir) use this loop. -/
def chainToRoot (root d : List String) : List (List String) :=
  if _h : d.length ≤ root.length then []
  else d :: chainToRoot root d.dropLast
termination_by d.length
decreasing_by
  simp only [List.length_dropLast]
  omega

/-- `os.Remove(dir)` succeeds exactly when the directory holds nothing: no
remaining file path lies at or below `d`. (Directories exist here only to
hold files, so file containment is the whole emptiness test.) -/
def dirEmpty (rem : List (List String)) (d : List String) : Bool :=
  rem.all (fun q => !(d.isPrefixOf q))

/-- The directories a pruning loop removes, given the remaining files `rem`:
the longest chain of empty parents, stopping at the first failing
`os.Remove`. -/
def pruneDirs (rem : List (List String)) (root d : List String) :
    List (List String) :=
  (chainToRoot root d).takeWhile (dirEmpty rem)

/-- Directories visited by the watcher's pruning loop for a deleted file at
relative path `p`: `filepath.Dir` of the file, then each parent, sync root
excluded. -/
def localParentChain (p : String) : List (List String) :=
  chainToRoot [] ((splitPath p).dropLast)

/-- The directories the watcher's loop removes after deleting the local file
at `p`, with `rem` the remaining local file paths. -/
def pruneLocalDirs (rem : List String) (p : String) : List (List String) :=
  pruneDirs (rem.map splitPath) [] ((splitPath p).dropLast)

theorem chainToRoot_mem {root d : List String} :
    ∀ e : List String, e ∈ chainToRoot root d →
      e <+: d ∧ root.length < e.length := by
  induction d using chainToRoot.induct root with
  | case1 d hd =>
    intro e he
    rw [chainToRoot, dif_pos hd] at he
    simp at he
  | case2 d hd ih =>
    intro e he
    rw [chainToRoot, dif_neg hd] at he
    rcases List.mem_cons.mp he with he1 | he2
    · subst he1
      exact ⟨ List.prefix_refl e, by omega⟩
    · obtain ⟨hp, hlen⟩ := ih e he2
      exact ⟨hp.trans ( List.dropLast_prefix d), hlen⟩

theorem dirEmpty_iff (rem : List (List String)) (d : List String) :
    dirEmpty rem d = true ↔ ∀ q ∈ rem, ¬ (d <+: q) := by
  simp [dirEmpty, List.all_eq_true, ← List.isPrefixOf_iff_prefix]

/-- The pruning loop removes a directory of the chain exactly when it is
empty — the loop stops at the first non-empty directory, but an inner
non-empty directory makes every outer one non-empty too. -/
theorem pruneDirs_mem_iff (rem : List (List String)) {root d : List String} :
    ∀ e : List String,
      e ∈ pruneDirs rem root d ↔
        e ∈ chainToRoot root d ∧ dirEmpty rem e = true := by
  unfold pruneDirs
  induction d using chainToRoot.induct root with
  | case1 d hd =>
    intro e
    rw [chainToRoot, dif_pos hd]
    simp
  | case2 d hd ih =>
    intro e
    rw [chainToRoot, dif_neg hd, List.takeWhile_cons]
    cases hE : dirEmpty rem d with
    | true =>
      simp only [if_true]
      constructor
      · intro he
        rcases List.mem_cons.mp he with he1 | he2
        · subst he1
          exact ⟨List.mem_cons_self _ _, hE⟩
        · obtain ⟨hm, hemp⟩ := (ih e).mp he2
          exact ⟨List.mem_cons_of_mem _ hm, hemp⟩
      · rintro ⟨hm, hemp⟩
        rcases List.mem_cons.mp hm with he1 | he2
        · subst he1
          exact List.mem_cons_self _ _
        · exact List.mem_cons_of_mem _ ((ih e).mpr ⟨he2, hemp⟩)
    | false =>
      simp only [Bool.false_eq_true, if_false, List.not_mem_nil, false_iff]
      rintro ⟨hm, hemp⟩
      have hq : ∃ q ∈ rem, d <+: q := by
        by_contra hall
        push_neg at hall
        rw [(dirEmpty_iff rem d).mpr hall] at hE
        exact Bool.true_eq_false.mp hE
      obtain ⟨q, hqm, hqp⟩ := hq
      have hed : e <+: d := by
        rcases List.mem_cons.mp hm with he1 | he2
        · exact he1 ▸ List.prefix_refl e
        · exact (chainToRoot_mem e he2).1.trans ( List.dropLast_prefix d)
      have hnq : ¬ (e <+: q) := (dirEmpty_iff rem e).mp hemp q hqm
      exact hnq (hed.trans hqp)

/-- Modelled from the spec: the server HTTP PUT handler wiring, which is
absent from `src/` (only `Storage.RemoveTombstone` itself is there, in
part_007). Per the spec's lifecycle rule — tombstones are "destroyed by
TTL-based pruning or explicit removal when a path is legitimately
recreated" — a successful put of a path removes that path's tombstone from
the journal. -/
def serverPutJournal (journal : List Tombstone) (p : String) : List Tombstone :=
  removeTombstone journal p

theorem tombLookup_serverPut (ts : List Tombstone) (p : String) :
    tombLookup (serverPutJournal ts p) p = none := by
  refine goMapLookup_eq_none Tombstone.path ?_
  simp only [serverPutJournal, removeTombstone, List.mem_map, List.mem_filter]
  rintro ⟨t, ⟨_, hne⟩, he⟩
  simp only [decide_eq_true_eq] at hne
  exact hne he

/-- C1: for a local file absent from the remote listing but tombstoned, the
private full reconciliation deletes the local file when the tombstone is
strictly newer than the local modification time — and the pruning loop then
removes exactly the now-empty parent directories up to the sync root — and
otherwise uploads the file, whose server-side put removes the tombstone
(the tombstone is superseded). -/
theorem c1_tombstone_reconciliation {dirFiles : List LocalFile}
    {remote : List FileInfo} {ts : List Tombstone} {pushOnly : Bool}
    {f : LocalFile} {t : Tombstone} {acts : List Action}
    (hnd : (dirFiles.map LocalFile.path).Nodup)
    (hf : f ∈ dirFiles) (hsync : isSyncableExt f.path = true)
    (habsent : remoteLookup remote f.path = none)
    (ht : tombLookup ts f.path = some t)
    (hrun : fullSyncClient dirFiles remote (some ts) none pushOnly noFailures =
      .ok acts) :
    (f.modTime < t.deletedAt →
      Action.deleteLocal f.path ∈ acts ∧ Action.upload f.path ∉ acts ∧
      (∀ d, d ∈ pruneLocalDirs
          ((dirFiles.filter (fun g => g.path ≠ f.path)).map LocalFile.path) f.path ↔
        (d ∈ localParentChain f.path ∧
          ∀ q ∈ (dirFiles.filter (fun g => g.path ≠ f.path)).map LocalFile.path,
            ¬ (d <+: splitPath q))))
    ∧ (¬ f.modTime < t.deletedAt →
      Action.upload f.path ∈ acts ∧ Action.deleteLocal f.path ∉ acts ∧
      tombLookup (serverPutJournal ts f.path) f.path = none) := by
  rw [fullSyncClient_noFailures] at hrun
  have hacts : acts = runSync dirFiles remote (some ts) none pushOnly :=
    (Except.ok.inj hrun).symm
  subst hacts
  have helig : eligible none f = true := by simp [eligible, hsync]
  constructor
  · intro hlt
    have hfa : fileActs none (some ts) remote f = [Action.deleteLocal f.path] := by
      simp only [fileActs, habsent]
      simp only [ht]
      simp [hlt]
    refine ⟨?_, ?_, ?_⟩
    · exact (mem_runSync_iff hnd hf helig (Action.deleteLocal f.path) rfl).mpr
        (by rw [hfa]; simp)
    · intro hup
      have hmem := (mem_runSync_iff hnd hf helig (Action.upload f.path) rfl).mp hup
      rw [hfa] at hmem
      simp at hmem
    · intro d
      rw [pruneLocalDirs, localParentChain, pruneDirs_mem_iff, dirEmpty_iff]
      constructor
      · rintro ⟨hm, hall⟩
        exact ⟨hm, fun q hq => hall (splitPath q) (List.mem_map_of_mem splitPath hq)⟩
      · rintro ⟨hm, hall⟩
        refine ⟨hm, fun q hq => ?_⟩
        obtain ⟨q0, hq0, rfl⟩ := List.mem_map.mp hq
        exact hall q0 hq0
  · intro hnlt
    have hfa : fileActs none (some ts) remote f = [Action.upload f.path] := by
      simp only [fileActs, habsent]
      simp only [ht]
      simp [hnlt]
    refine ⟨?_, ?_, tombLookup_serverPut ts f.path⟩
    · exact (mem_runSync_iff hnd hf helig (Action.upload f.path) rfl).mpr
        (by rw [hfa]; simp)
    · intro hdel
      have hmem := (mem_runSync_iff hnd hf helig (Action.deleteLocal f.path) rfl).mp hdel
      rw [hfa] at hmem
      simp at hmem

/-- Closed witness for C1: a tombstone newer than the local file leads to a
local delete and no upload at a concrete one-file state. -/
theorem c1_witness :
    Action.deleteLocal "n/a.md" ∈ [Action.deleteLocal "n/a.md"] ∧
    Action.upload "n/a.md" ∉ [Action.deleteLocal "n/a.md"] :=
  have h := (@c1_tombstone_reconciliation
    [{ path := "n/a.md", hash := "h1", modTime := 5 }] []
    [{ path := "n/a.md", deletedAt := 9 }] false
    { path := "n/a.md", hash := "h1", modTime := 5 }
    { path := "n/a.md", deletedAt := 9 }
    [Action.deleteLocal "n/a.md"]
    (by decide) (by decide) (by decide) (by decide) (by decide) (by rfl)).1
    (by decide)
  ⟨h.1, h.2.1⟩

/-! ### Claim C3 -/

/-- An oracle where only the upload of `a.md` fails. -/
def uploadAFails : FailureOracle :=
  { hashFails := fun _ => false
    uploadFails := fun p => p == "a.md"
    downloadFails := fun _ => false
    removeLocalFails := fun _ => false
    deleteRemoteFails := fun _ => false }

/-- C3 counterexample: a single file's upload failure makes the whole full
reconciliation pass return an error (the walk aborts; the second local file
`b.md` is never reached), contradicting "no single file's failure causes the
full reconciliation pass to abort". -/
theorem c3_counterexample :
    fullSyncClient
      [{ path := "a.md", hash := "h1", modTime := 0 },
       { path := "b.md", hash := "h2", modTime := 0 }]
      [] none none false uploadAFails = .error "upload a.md" := by rfl

/-- C3 amended: failures of the tombstone-triggered local removal and of the
post-walk operations (remote deletes, downloads of remote-only files) never
abort the pass — the attempted action list is exactly that of a failure-free
pass; but a hash, upload, or download failure for any eligible file reached
by the walk aborts the whole pass with an error. -/
theorem c3_per_file_failures :
    (∀ (dirFiles : List LocalFile) (remote : List FileInfo)
       (tombs : Option (List Tombstone)) (filter : Option (String → Bool))
       (pushOnly : Bool) (rm dl : String → Bool),
      fullSyncClient dirFiles remote tombs filter pushOnly
          { hashFails := fun _ => false
            uploadFails := fun _ => false
            downloadFails := fun _ => false
            removeLocalFails := rm
            deleteRemoteFails := dl } =
        .ok (runSync dirFiles remote tombs filter pushOnly))
    ∧ (∀ (dirFiles : List LocalFile) (remote : List FileInfo)
         (tombs : Option (List Tombstone)) (filter : Option (String → Bool))
         (pushOnly : Bool) (fo : FailureOracle) (f : LocalFile) (e : String),
        f ∈ dirFiles → eligible filter f = true →
        processFile filter tombs remote fo f = .error e →
        ∃ e', fullSyncClient dirFiles remote tombs filter pushOnly fo = .error e') := by
  constructor
  · intro dirFiles remote tombs filter pushOnly rm dl
    exact fullSyncClient_walkSafe ⟨rfl, rfl, rfl⟩ dirFiles remote tombs filter pushOnly
  · intro dirFiles remote tombs filter pushOnly fo f e hf helig herr
    obtain ⟨e', hw⟩ := walkLocal_error_of_processFile_error hf helig herr
    refine ⟨e', ?_⟩
    unfold fullSyncClient
    rw [hw]

/-- Closed witness for the amended C3: with every remote delete failing the
publish pass still completes, and the failing upload of `a.md` aborts the
private pass. -/
theorem c3_witness :
    (fullSyncClient [] [{ path := "x.md", hash := "h", size := 1, modTime := 0 }]
        none (some (fun _ => true)) false
        { hashFails := fun _ => false
          uploadFails := fun _ => false
          downloadFails := fun _ => false
          removeLocalFails := fun _ => true
          deleteRemoteFails := fun _ => true } =
      .ok (runSync [] [{ path := "x.md", hash := "h", size := 1, modTime := 0 }]
            none (some (fun _ => true)) false))
    ∧ (∃ e', fullSyncClient
        [{ path := "a.md", hash := "h1", modTime := 0 },
         { path := "b.md", hash := "h2", modTime := 0 }]
        [] none none false uploadAFails = .error e') :=
  ⟨c3_per_file_failures.1 [] [{ path := "x.md", hash := "h", size := 1, modTime := 0 }]
      none (some (fun _ => true)) false (fun _ => true) (fun _ => true),
   c3_per_file_failures.2
      [{ path := "a.md", hash := "h1", modTime := 0 },
       { path := "b.md", hash := "h2", modTime := 0 }]
      [] none none false uploadAFails
      { path := "a.md", hash := "h1", modTime := 0 } "upload a.md"
      (by decide) (by decide) (by rfl)⟩

/-! ## Content store filesystem (`part_007` `safePath`/`Put`/`Delete`)

Absolute paths are component lists relative to the filesystem root (so the
data dir `/srv/data` is `["srv", "data"]`). The data dir is canonical: it
came from `filepath.Abs` in `storage.New`, so it has no `""`, `"."` or
`".."` components. The Go check `strings.HasPrefix(abs, dataDir + "/") ||
abs == dataDir` is, on canonical component lists, exactly the component
list-prefix test. -/

/-- Whether the raw request path begins with a slash (its first split
component is empty and another follows). -/
def isAbsPath (rel : String) : Bool :=
  match splitPath rel with
  | "" :: _ :: _ => true
  | _ => false

/-- Go `filepath.Clean` on split components: drop empty and `.` components;
`..` pops the previous component, stacks up at the front of a relative
path, and vanishes at the root of an absolute one. -/
def cleanPathAux (absFlag : Bool) : List String → List String → List String
  | acc, [] => acc.reverse
  | acc, c :: rest =>
    if c = "" ∨ c = "." then cleanPathAux absFlag acc rest
    else if c = ".." then
      match acc with
      | [] =>
        if absFlag then cleanPathAux absFlag [] rest
        else cleanPathAux absFlag [".."] rest
      | x :: xs =>
        if x = ".." then cleanPathAux absFlag (".." :: x :: xs) rest
        else cleanPathAux absFlag xs rest
    else cleanPathAux absFlag (c :: acc) rest

def cleanPath (absFlag : Bool) (cs : List String) : List String :=
  cleanPathAux absFlag [] cs

/-- The absolute path the operating system would act on:
`filepath.Join(dataDir, filepath.Clean(relPath))` (Join cleans the
concatenation). -/
def resolvePath (root : List String) (rel : String) : List String :=
  cleanPath true (root ++ cleanPath (isAbsPath rel) (splitPath rel))

/-- `Storage.safePath` (part_007 lines 50-62): resolve the request path
under the data dir and reject it unless the result is the data dir or lies
under it. -/
def safePath (root : List String) (rel : String) : Except String (List String) :=
  let abs := resolvePath root rel
  if root.isPrefixOf abs then .ok abs
  else .error ("path escapes data directory: " ++ rel)

/-- A stored file: absolute component path and content bytes. -/
structure StoredFile where
  path : List String
  content : String
  deriving DecidableEq, Repr

/-- Outcome of `Storage.Put`: the Go result and the filesystem afterwards. -/
structure PutResult where
  result : Except String Unit
  fs : List StoredFile
  deriving Repr

/-- `Storage.Put` (part_007 lines 64-104): reject an escaping path before
any filesystem operation; otherwise create or atomically overwrite the file
at the resolved path. -/
def storagePut (root : List String) (fs : List StoredFile) (rel : String)
    (content : String) : PutResult :=
  match safePath root rel with
  | .error e => { result := .error e, fs := fs }
  | .ok abs =>
    { result := .ok ()
      fs :=
        if fs.any (fun sf => sf.path == abs) then
          fs.map (fun sf => if sf.path == abs then { sf with content := content } else sf)
        else fs ++ [{ path := abs, content := content }] }

/-- Outcome of `Storage.Delete`: the Go result, the filesystem afterwards,
and the parent directories the pruning loop removed. -/
structure DeleteResult where
  result : Except String Unit
  fs : List StoredFile
  removedDirs : List (List String)
  deriving Repr

/-- `Storage.Delete` (part_007 lines 106-128): reject an escaping path;
`os.Remove` the file (an error when it does not exist); then remove
now-empty parent directories up to the data dir. -/
def storageDelete (root : List String) (fs : List StoredFile) (rel : String) :
    DeleteResult :=
  match safePath root rel with
  | .error e => { result := .error e, fs := fs, removedDirs := [] }
  | .ok abs =>
    if fs.any (fun sf => sf.path == abs) then
      let fs' := fs.filter (fun sf => sf.path ≠ abs)
      { result := .ok ()
        fs := fs'
        removedDirs := pruneDirs (fs'.map StoredFile.path) root abs.dropLast }
    else { result := .error "file does not exist", fs := fs, removedDirs := [] }

/-- Modelled from the spec: the server `DELETE /api/files/{path}` handler
wiring, absent from `src/` (the handler present there predates tombstones;
`Storage.AddTombstone` itself is in part_007). Per the spec — "remove file +
record tombstone" — a successful delete on the private store records a
tombstone for the request path. Returns the delete outcome and the journal
afterwards. -/
def serverDelete (root : List String) (fs : List StoredFile)
    (journal : List Tombstone) (rel : String) (now : Int) :
    DeleteResult × List Tombstone :=
  let r := storageDelete root fs rel
  match r.result with
  | .ok _ => (r, addTombstone journal rel now)
  | .error _ => (r, journal)

/-- The entry added by `addTombstone` is in the journal with the new time. -/
theorem addTombstone_mem (j : List Tombstone) (p : String) (now : Int) :
    ∃ t, t ∈ addTombstone j p now ∧ t.path = p ∧ t.deletedAt = now := by
  unfold addTombstone
  cases hu : updateFirst j p now with
  | some r => exact updateFirst_mem hu
  | none => exact ⟨{ path := p, deletedAt := now }, by simp, rfl, rfl⟩

/-- C6: for a request path resolving inside the store root, the private
store delete removes exactly the stored file, its pruning loop removes a
directory exactly when it is a parent of the deleted file lying below the
store root that holds no remaining file (so the now-empty parents are
removed, and only they — all strict parents below the root), and a
tombstone is recorded for the request path; when no file exists at the
resolved path it returns an error and changes nothing. -/
theorem c6_delete_contract {root : List String} {fs : List StoredFile}
    {journal : List Tombstone} {rel : String} {now : Int} {abs : List String}
    (hsp : safePath root rel = .ok abs) :
    ((∃ sf ∈ fs, sf.path = abs) →
      (serverDelete root fs journal rel now).1.result = .ok () ∧
      (∀ sf, sf ∈ (serverDelete root fs journal rel now).1.fs ↔
        (sf ∈ fs ∧ sf.path ≠ abs)) ∧
      (∀ d, d ∈ (serverDelete root fs journal rel now).1.removedDirs ↔
        (d ∈ chainToRoot root abs.dropLast ∧
          ∀ sf ∈ (serverDelete root fs journal rel now).1.fs,
            ¬ (d <+: sf.path))) ∧
      (∀ d ∈ (serverDelete root fs journal rel now).1.removedDirs,
        root.length < d.length ∧ d <+: abs.dropLast) ∧
      (∃ t, t ∈ (serverDelete root fs journal rel now).2 ∧
        t.path = rel ∧ t.deletedAt = now))
    ∧ ((∀ sf ∈ fs, sf.path ≠ abs) →
      ∃ e, (serverDelete root fs journal rel now).1.result = .error e ∧
        (serverDelete root fs journal rel now).1.fs = fs ∧
        (serverDelete root fs journal rel now).2 = journal) := by
  constructor
  · rintro ⟨sf0, hsf0, hp0⟩
    have han : fs.any (fun sf => sf.path == abs) = true := by
      rw [List.any_eq_true]
      exact ⟨sf0, hsf0, beq_iff_eq.mpr hp0⟩
    simp only [serverDelete, storageDelete, hsp, han, if_true]
    refine ⟨by trivial, ?_, ?_, ?_, addTombstone_mem journal rel now⟩
    · intro sf
      simp [List.mem_filter]
    · intro d
      rw [pruneDirs_mem_iff, dirEmpty_iff]
      constructor
      · rintro ⟨hm, hall⟩
        refine ⟨hm, ?_⟩
        intro sf hsf
        exact hall sf.path (List.mem_map_of_mem StoredFile.path hsf)
      · rintro ⟨hm, hall⟩
        refine ⟨hm, ?_⟩
        intro q hq
        obtain ⟨sf, hsf, rfl⟩ := List.mem_map.mp hq
        exact hall sf hsf
    · intro d hd
      obtain ⟨hm, hemp⟩ := (pruneDirs_mem_iff _ d).mp hd
      obtain ⟨hpre, hlen⟩ := chainToRoot_mem d hm
      exact ⟨hlen, hpre⟩
  · intro hna
    have han : fs.any (fun sf => sf.path == abs) = false := by
      rw [List.any_eq_false]
      intro sf hsf
      simp only [beq_iff_eq]
      exact hna sf hsf
    simp only [serverDelete, storageDelete, hsp, han, Bool.false_eq_true, if_false]
    exact ⟨"file does not exist", by trivial, by trivial, by trivial⟩

/-- Closed witness for C6 at a concrete two-file store: deleting `n/a.md`
succeeds, the pruning loop removes the now-emptied parent directory
`data/n` (while `data/m` still holds a file), and a tombstone is
recorded. -/
theorem c6_witness :
    (serverDelete ["data"]
      [{ path := ["data", "n", "a.md"], content := "X" },
       { path := ["data", "m", "b.md"], content := "Y" }]
      [] "n/a.md" 7).1.result = .ok () ∧
    ["data", "n"] ∈ (serverDelete ["data"]
      [{ path := ["data", "n", "a.md"], content := "X" },
       { path := ["data", "m", "b.md"], content := "Y" }]
      [] "n/a.md" 7).1.removedDirs ∧
    (∃ t, t ∈ (serverDelete ["data"]
      [{ path := ["data", "n", "a.md"], content := "X" },
       { path := ["data", "m", "b.md"], content := "Y" }]
      [] "n/a.md" 7).2 ∧ t.path = "n/a.md" ∧ t.deletedAt = 7) :=
  have h := (@c6_delete_contract ["data"]
    [{ path := ["data", "n", "a.md"], content := "X" },
     { path := ["data", "m", "b.md"], content := "Y" }]
    [] "n/a.md" 7 ["data", "n", "a.md"] (by rfl)).1 (by decide)
  ⟨h.1,
    (h.2.2.1 ["data", "n"]).mpr
      ⟨by rw [chainToRoot]; simp, by decide⟩,
    h.2.2.2.2⟩

/-- C8: a request path that, after canonicalization, resolves outside the
store root is rejected by both `Put` and `Delete` before any filesystem
operation: both return an error and the filesystem is unchanged (no file
anywhere — inside or outside the root — is created, overwritten, or
removed). -/
theorem c8_traversal_rejected {root : List String} {fs : List StoredFile}
    {rel : String} {content : String}
    (hesc : ∀ tail, root ++ tail ≠ resolvePath root rel) :
    ((storagePut root fs rel content).result =
        .error ("path escapes data directory: " ++ rel) ∧
      (storagePut root fs rel content).fs = fs) ∧
    ((storageDelete root fs rel).result =
        .error ("path escapes data directory: " ++ rel) ∧
      (storageDelete root fs rel).fs = fs ∧
      (storageDelete root fs rel).removedDirs = []) := by
  have hnp : root.isPrefixOf (resolvePath root rel) = false := by
    cases hb : root.isPrefixOf (resolvePath root rel) with
    | false => rfl
    | true =>
      obtain ⟨tail, htail⟩ := List.isPrefixOf_iff_prefix.mp hb
      exact absurd htail (hesc tail)
  have hsp : safePath root rel =
      .error ("path escapes data directory: " ++ rel) := by
    unfold safePath
    simp [hnp]
  exact ⟨by simp [storagePut, hsp], by simp [storageDelete, hsp]⟩

/-- Closed witness for C8: `../../etc/passwd` under root `/srv/data`
resolves to `/etc/passwd`, outside the root, and both operations reject it
leaving the store untouched. -/
theorem c8_witness :
    ((storagePut ["srv", "data"]
        [{ path := ["srv", "data", "a.md"], content := "X" }]
        "../../etc/passwd" "C").result =
      .error ("path escapes data directory: " ++ "../../etc/passwd") ∧
      (storagePut ["srv", "data"]
        [{ path := ["srv", "data", "a.md"], content := "X" }]
        "../../etc/passwd" "C").fs =
        [{ path := ["srv", "data", "a.md"], content := "X" }]) ∧
    ((storageDelete ["srv", "data"]
        [{ path := ["srv", "data", "a.md"], content := "X" }]
        "../../etc/passwd").result =
      .error ("path escapes data directory: " ++ "../../etc/passwd") ∧
      (storageDelete ["srv", "data"]
        [{ path := ["srv", "data", "a.md"], content := "X" }]
        "../../etc/passwd").fs =
        [{ path := ["srv", "data", "a.md"], content := "X" }] ∧
      (storageDelete ["srv", "data"]
        [{ path := ["srv", "data", "a.md"], content := "X" }]
        "../../etc/passwd").removedDirs = []) :=
  @c8_traversal_rejected ["srv", "data"]
    [{ path := ["srv", "data", "a.md"], content := "X" }]
    "../../etc/passwd" "C"
    (by
      intro tail h
      rw [show resolvePath ["srv", "data"] "../../etc/passwd" = ["etc", "passwd"]
        from rfl] at h
      simp at h)

/-! ## Publish eligibility (`FullSync` watcher.go lines 40-49,
`collectPublishedImageRefs` part_004, `ExtractImageRefs` wikilinks.go) -/

/-- ASCII-space trimming (the effect of Go `strings.TrimSpace` on the names
appearing here). -/
def trimAscii (s : String) : String :=
  (((s.toList.dropWhile (fun c => c = ' ')).reverse.dropWhile
    (fun c => c = ' ')).reverse).asString

/-- Set-as-list insertion: the `if !seen[base] { seen[base] = true; append }`
pattern. -/
def dedupInsert (acc : List String) (x : String) : List String :=
  if acc.contains x then acc else acc ++ [x]

def dedupUnion (acc l : List String) : List String :=
  l.foldl dedupInsert acc

/-- The `add` closure of `ExtractImageRefs` (wikilinks.go lines 75-85),
applied to each name the two image regexes capture (with the Obsidian
`alt|name` pipe handling already applied): trim, drop empty or non-image
names, normalise to the basename, first occurrence only. The regex scanning
itself is not modelled; a markdown file is represented by its capture list. -/
def extractImageRefs (raw : List String) : List String :=
  raw.foldl
    (fun acc name =>
      let nm := trimAscii name
      if nm == "" || !(isImage nm) then acc
      else dedupInsert acc (basename nm))
    []

/-- A local markdown file as the publish filter sees it: its relative path,
whether `markdown.IsPublished` holds of its content (frontmatter
`publish: true`), and the raw names its image references capture. -/
structure MdNote where
  path : String
  published : Bool
  rawRefs : List String
  deriving DecidableEq, Repr

/-- `collectPublishedImageRefs` (part_004): the set of image basenames
referenced by published markdown files of the local tree. -/
def collectPublishedImageRefs (notes : List MdNote) : List String :=
  notes.foldl
    (fun acc n =>
      if isMd n.path && n.published then
        dedupUnion acc (extractImageRefs n.rawRefs)
      else acc)
    []

/-- The `shouldSync` closure built in `FullSync` (watcher.go lines 41-49)
for the publish target: markdown must be published; an image must have its
basename among the references of some published note; anything else is
ineligible. `isPub` abstracts `markdown.IsPublished` on the markdown
branch. -/
def shouldSync (notes : List MdNote) (isPub : String → Bool)
    (relPath : String) : Bool :=
  if isMd relPath then isPub relPath
  else if isImage relPath then
    (collectPublishedImageRefs notes).contains (basename relPath)
  else false

theorem mem_dedupInsert {acc : List String} {x r : String} :
    r ∈ dedupInsert acc x ↔ r ∈ acc ∨ r = x := by
  unfold dedupInsert
  cases hc : acc.contains x with
  | true =>
    simp only [if_true]
    constructor
    · exact Or.inl
    · rintro (h | rfl)
      · exact h
      · exact List.elem_iff.mp hc
  | false =>
    simp only [Bool.false_eq_true, if_false, List.mem_append,
      List.mem_singleton]

theorem mem_dedupUnion {r : String} :
    ∀ {l acc : List String}, r ∈ dedupUnion acc l ↔ r ∈ acc ∨ r ∈ l
  | [], acc => by simp [dedupUnion]
  | x :: xs, acc => by
    unfold dedupUnion
    rw [List.foldl_cons]
    have ih := @mem_dedupUnion r xs (dedupInsert acc x)
    unfold dedupUnion at ih
    rw [ih, mem_dedupInsert]
    simp [List.mem_cons, or_assoc]

theorem mem_collectPublishedImageRefs {notes : List MdNote} {r : String} :
    r ∈ collectPublishedImageRefs notes ↔
      ∃ n, n ∈ notes ∧ isMd n.path = true ∧ n.published = true ∧
        r ∈ extractImageRefs n.rawRefs := by
  unfold collectPublishedImageRefs
  suffices h : ∀ (ns : List MdNote) (acc : List String),
      r ∈ ns.foldl
        (fun acc n =>
          if isMd n.path && n.published then
            dedupUnion acc (extractImageRefs n.rawRefs)
          else acc) acc ↔
      (r ∈ acc ∨ ∃ n, n ∈ ns ∧ isMd n.path = true ∧ n.published = true ∧
        r ∈ extractImageRefs n.rawRefs) by
    rw [h notes []]
    simp
  intro ns
  induction ns with
  | nil => intro acc; simp
  | cons n ns ih =>
    intro acc
    rw [List.foldl_cons]
    cases hc : isMd n.path && n.published with
    | true =>
      simp only [if_true]
      rw [ih, mem_dedupUnion]
      have hc2 : isMd n.path = true ∧ n.published = true := by simpa using hc
      obtain ⟨hmd, hpub⟩ := hc2
      constructor
      · rintro ((h | h) | ⟨m, hm, h1, h2, h3⟩)
        · exact Or.inl h
        · exact Or.inr ⟨n, List.mem_cons_self n ns, hmd, hpub, h⟩
        · exact Or.inr ⟨m, List.mem_cons_of_mem n hm, h1, h2, h3⟩
      · rintro (h | ⟨m, hm, h1, h2, h3⟩)
        · exact Or.inl (Or.inl h)
        · rcases List.mem_cons.mp hm with rfl | hm2
          · exact Or.inl (Or.inr h3)
          · exact Or.inr ⟨m, hm2, h1, h2, h3⟩
    | false =>
      simp only [Bool.false_eq_true, if_false]
      rw [ih]
      constructor
      · rintro (h | ⟨m, hm, h1, h2, h3⟩)
        · exact Or.inl h
        · exact Or.inr ⟨m, List.mem_cons_of_mem n hm, h1, h2, h3⟩
      · rintro (h | ⟨m, hm, h1, h2, h3⟩)
        · exact Or.inl h
        · rcases List.mem_cons.mp hm with rfl | hm2
          · rw [h1, h2] at hc
            simp at hc
          · exact Or.inr ⟨m, hm2, h1, h2, h3⟩

/-- A path with an image extension is never markdown. -/
theorem image_not_md {p : String} (h : isImage p = true) : isMd p = false := by
  unfold isImage ImageExts at h
  unfold isMd
  cases he : lowerAscii (extOf p) == ".md" with
  | true =>
    rw [eq_of_beq he] at h
    simp [List.contains_cons] at h
  | false => rfl

/-- The walk's syncable non-markdown files are exactly the image files. -/
theorem syncable_non_md_iff_image (p : String) :
    (isSyncableExt p = true ∧ isMd p = false) ↔ isImage p = true := by
  unfold isSyncableExt isMd isImage SyncExts ImageExts
  cases he : lowerAscii (extOf p) == ".md" with
  | true =>
    rw [eq_of_beq he]
    simp [List.contains_cons]
  | false =>
    have hne : lowerAscii (extOf p) ≠ ".md" := by simpa using he
    simp [List.contains_cons, hne]

/-- C10: under the publish filter, an image (equivalently, a non-markdown
syncable file) is eligible exactly when its basename is among the image
references extracted from some published local markdown file; the directory
part plays no role — two images with equal basenames are equally eligible. -/
theorem c10_publish_image_eligibility :
    (∀ p : String, (isSyncableExt p = true ∧ isMd p = false) ↔ isImage p = true)
    ∧ (∀ (notes : List MdNote) (isPub : String → Bool) (p : String),
        isImage p = true →
        (shouldSync notes isPub p = true ↔
          ∃ n, n ∈ notes ∧ isMd n.path = true ∧ n.published = true ∧
            basename p ∈ extractImageRefs n.rawRefs))
    ∧ (∀ (notes : List MdNote) (isPub : String → Bool) (p q : String),
        isImage p = true → isImage q = true → basename p = basename q →
        shouldSync notes isPub p = shouldSync notes isPub q) := by
  refine ⟨syncable_non_md_iff_image, ?_, ?_⟩
  · intro notes isPub p himg
    unfold shouldSync
    rw [image_not_md himg, himg]
    simp only [Bool.false_eq_true, if_false, if_true]
    rw [List.elem_iff]
    exact mem_collectPublishedImageRefs
  · intro notes isPub p q hp hq hbase
    unfold shouldSync
    rw [image_not_md hp, image_not_md hq, hp, hq, hbase]
    simp

/-- Closed witness for C10: `pics/dog.png` is eligible because the published
note `a.md` references `dog.png`, directory notwithstanding. -/
theorem c10_witness :
    shouldSync [{ path := "a.md", published := true, rawRefs := ["dog.png"] }]
      (fun _ => false) "pics/dog.png" = true :=
  (c10_publish_image_eligibility.2.1
    [{ path := "a.md", published := true, rawRefs := ["dog.png"] }]
    (fun _ => false) "pics/dog.png" (by decide)).mpr
    ⟨{ path := "a.md", published := true, rawRefs := ["dog.png"] },
      by decide, by decide, by decide, by decide⟩

/-! ## Keyed list stores

Generic lemmas about lists of records with a string key: lookup, removal,
and insert-or-replace, as the state-application semantics for claim C4
needs them. -/

section KeyOps

variable {α : Type} (key : α → String)

/-- First record with the given key. -/
def keyFind (l : List α) (p : String) : Option α :=
  l.find? (fun x => key x == p)

/-- Drop every record with the given key (`os.Remove` / remote delete). -/
def keyRemove (l : List α) (p : String) : List α :=
  l.filter (fun x => key x ≠ p)

/-- Replace the record at the key, or append a fresh one (atomic
create-or-overwrite). -/
def keyUpsert (mk : α) (l : List α) (p : String) : List α :=
  if l.any (fun x => key x == p) then
    l.map (fun x => if key x == p then mk else x)
  else l ++ [mk]

theorem keyFind_eq_some {l : List α} {p : String} {x : α}
    (h : keyFind key l p = some x) : x ∈ l ∧ key x = p :=
  ⟨List.mem_of_find?_eq_some h, by
    have hp := List.find?_some h
    simpa using hp⟩

theorem keyFind_of_mem {l : List α} (hnd : (l.map key).Nodup) {x : α}
    (hx : x ∈ l) : keyFind key l (key x) = some x := by
  induction l with
  | nil => exact absurd hx (List.not_mem_nil x)
  | cons y rest ih =>
    rcases List.nodup_cons.mp hnd with ⟨hny, hnr⟩
    unfold keyFind
    cases hy : key y == key x with
    | true =>
      rcases List.mem_cons.mp hx with rfl | hx2
      · simp [List.find?_cons, hy]
      · exact absurd (eq_of_beq hy ▸ List.mem_map_of_mem key hx2) hny
    | false =>
      rcases List.mem_cons.mp hx with rfl | hx2
      · simp at hy
      · rw [List.find?_cons_of_neg _ (by simp [hy])]
        exact ih hnr hx2

theorem keyFind_eq_none {l : List α} {p : String} :
    keyFind key l p = none ↔ ∀ x ∈ l, key x ≠ p := by
  simp [keyFind, List.find?_eq_none]

theorem keyFind_keyRemove_self (l : List α) (p : String) :
    keyFind key (keyRemove key l p) p = none := by
  rw [keyFind_eq_none]
  intro x hx
  have hmem := List.mem_filter.mp hx
  simpa using hmem.2

theorem keyFind_keyRemove_ne {l : List α} {p q : String} (hq : q ≠ p) :
    keyFind key (keyRemove key l p) q = keyFind key l q := by
  induction l with
  | nil => rfl
  | cons y rest ih =>
    by_cases hyp : key y = p
    · have hdrop : keyRemove key (y :: rest) p = keyRemove key rest p := by
        simp [keyRemove, List.filter_cons, hyp]
      have hyq : (key y == q) = false :=
        beq_eq_false_iff_ne.mpr (by rw [hyp]; exact fun h => hq h.symm)
      rw [hdrop, ih]
      unfold keyFind
      simp [List.find?_cons, hyq]
    · have hkeep : keyRemove key (y :: rest) p = y :: keyRemove key rest p := by
        simp [keyRemove, List.filter_cons, hyp]
      rw [hkeep]
      unfold keyFind
      cases hyq : key y == q with
      | true => simp [List.find?_cons, hyq]
      | false =>
        simp only [List.find?_cons, hyq]
        exact ih

theorem find?_map_replace {mk : α} {p q : String} (hmk : key mk = p)
    (hq : q ≠ p) :
    ∀ l : List α,
      (l.map (fun x => if key x == p then mk else x)).find?
          (fun x => key x == q) =
        l.find? (fun x => key x == q)
  | [] => rfl
  | y :: rest => by
    by_cases hyp : key y = p
    · have hmkq : (key mk == q) = false :=
        beq_eq_false_iff_ne.mpr (by rw [hmk]; exact fun h => hq h.symm)
      have hyq : (key y == q) = false :=
        beq_eq_false_iff_ne.mpr (by rw [hyp]; exact fun h => hq h.symm)
      simp only [List.map_cons, beq_iff_eq.mpr hyp, if_true, List.find?_cons,
        hmkq, hyq]
      exact find?_map_replace hmk hq rest
    · have hy : (key y == p) = false := beq_eq_false_iff_ne.mpr hyp
      simp only [List.map_cons, hy, Bool.false_eq_true, if_false,
        List.find?_cons]
      cases hyq : key y == q with
      | true => rfl
      | false => exact find?_map_replace hmk hq rest

theorem find?_append_single {mk : α} {q : String}
    (hne : (key mk == q) = false) :
    ∀ l : List α,
      (l ++ [mk]).find? (fun x => key x == q) = l.find? (fun x => key x == q)
  | [] => by simp [List.find?_cons, hne]
  | y :: rest => by
    simp only [List.cons_append, List.find?_cons]
    cases hyq : key y == q with
    | true => rfl
    | false => exact find?_append_single hne rest

theorem keyFind_keyUpsert_self {mk : α} {p : String} (hmk : key mk = p)
    (l : List α) : keyFind key (keyUpsert key mk l p) p = some mk := by
  unfold keyUpsert keyFind
  cases hany : l.any (fun x => key x == p) with
  | true =>
    simp only [if_true]
    induction l with
    | nil => simp at hany
    | cons y rest ih =>
      cases hy : key y == p with
      | true =>
        simp only [List.map_cons, hy, if_true, List.find?_cons,
          beq_iff_eq.mpr hmk]
      | false =>
        have hrest : rest.any (fun x => key x == p) = true := by
          simp only [List.any_cons, hy, Bool.false_or] at hany
          exact hany
        simp only [List.map_cons, hy, Bool.false_eq_true, if_false,
          List.find?_cons, hy]
        exact ih hrest
  | false =>
    simp only [Bool.false_eq_true, if_false]
    induction l with
    | nil => simp [List.find?_cons, beq_iff_eq.mpr hmk]
    | cons y rest ih =>
      have hy : (key y == p) = false := by
        simp only [List.any_cons] at hany
        exact (Bool.or_eq_false_iff.mp hany).1
      have hrest : rest.any (fun x => key x == p) = false := by
        simp only [List.any_cons] at hany
        exact (Bool.or_eq_false_iff.mp hany).2
      simp only [List.cons_append, List.find?_cons, hy]
      exact ih hrest

theorem keyFind_keyUpsert_ne {mk : α} {p q : String} (hmk : key mk = p)
    (hq : q ≠ p) (l : List α) :
    keyFind key (keyUpsert key mk l p) q = keyFind key l q := by
  have hmkq : (key mk == q) = false :=
    beq_eq_false_iff_ne.mpr (by rw [hmk]; exact fun h => hq h.symm)
  unfold keyUpsert keyFind
  cases hany : l.any (fun x => key x == p) with
  | true =>
    simp only [if_true]
    exact find?_map_replace key hmk hq l
  | false =>
    simp only [Bool.false_eq_true, if_false]
    exact find?_append_single key hmkq l

theorem keyRemove_nodup {l : List α} (hnd : (l.map key).Nodup) (p : String) :
    ((keyRemove key l p).map key).Nodup :=
  List.Sublist.nodup (List.Sublist.map key (List.filter_sublist l)) hnd

theorem keyUpsert_nodup {mk : α} {p : String} (hmk : key mk = p)
    {l : List α} (hnd : (l.map key).Nodup) :
    ((keyUpsert key mk l p).map key).Nodup := by
  unfold keyUpsert
  cases hany : l.any (fun x => key x == p) with
  | true =>
    simp only [if_true]
    have hmap : (l.map (fun x => if key x == p then mk else x)).map key =
        l.map key := by
      rw [List.map_map]
      refine List.map_congr_left ?_
      intro x _
      simp only [Function.comp_apply]
      by_cases hx : key x = p
      · simp [beq_iff_eq.mpr hx, hmk, hx]
      · simp [beq_eq_false_iff_ne.mpr hx]
    rw [hmap]
    exact hnd
  | false =>
    simp only [Bool.false_eq_true, if_false, List.map_append, List.map_cons,
      List.map_nil]
    refine List.Nodup.append hnd (List.nodup_singleton _) ?_
    intro q hqm hqs
    simp only [List.mem_singleton] at hqs
    subst hqs
    obtain ⟨x, hx, hkx⟩ := List.mem_map.mp hqm
    have : (key x == p) = true := beq_iff_eq.mpr (hkx.trans hmk)
    have hfalse : l.any (fun x => key x == p) = true :=
      List.any_eq_true.mpr ⟨x, hx, this⟩
    rw [hfalse] at hany
    exact absurd hany (by simp)

end KeyOps

/-! ## State application (claim C4) -/

/-- Lookup of a local file by path. -/
def localLookup (dir : List LocalFile) (p : String) : Option LocalFile :=
  keyFind LocalFile.path dir p

/-- Lookup of a remote record by path (the `find?` view of `remoteLookup`). -/
def remoteFind (remote : List FileInfo) (p : String) : Option FileInfo :=
  keyFind FileInfo.path remote p

theorem remoteLookup_eq_remoteFind {remote : List FileInfo}
    (hnd : (remote.map FileInfo.path).Nodup) (p : String) :
    remoteLookup remote p = remoteFind remote p :=
  goMapLookup_eq_find FileInfo.path hnd

/-- One reconciliation action applied to the pair (local tree, remote
store): an upload stores the local file's bytes remotely (same content
digest, fresh server modification time; sizes are not tracked by the
reconciliation and are set to 0), a download mirrors the remote record into
the local tree, the deletes drop the entry. An action whose source record is
missing is a no-op (a run's own trace never produces one). -/
def applyAction (now : Int) (s : List LocalFile × List FileInfo) :
    Action → List LocalFile × List FileInfo
  | Action.upload p =>
    match localLookup s.1 p with
    | some f =>
      (s.1, keyUpsert FileInfo.path
        { path := p, hash := f.hash, size := 0, modTime := now } s.2 p)
    | none => s
  | Action.download p =>
    match remoteFind s.2 p with
    | some rf =>
      (keyUpsert LocalFile.path
        { path := p, hash := rf.hash, modTime := now } s.1 p, s.2)
    | none => s
  | Action.deleteLocal p => (keyRemove LocalFile.path s.1 p, s.2)
  | Action.deleteRemote p => (s.1, keyRemove FileInfo.path s.2 p)

/-- A trace of actions applied in order. -/
def applyActions (now : Int) (s : List LocalFile × List FileInfo)
    (acts : List Action) : List LocalFile × List FileInfo :=
  acts.foldl (applyAction now) s

theorem applyAction_frame {now : Int} {s : List LocalFile × List FileInfo}
    {a : Action} {p : String} (hne : a.pathOf ≠ p) :
    localLookup (applyAction now s a).1 p = localLookup s.1 p ∧
    remoteFind (applyAction now s a).2 p = remoteFind s.2 p := by
  cases a with
  | upload q =>
    simp only [Action.pathOf] at hne
    simp only [applyAction]
    cases hl : localLookup s.1 q with
    | none => exact ⟨rfl, rfl⟩
    | some f =>
      dsimp only
      exact ⟨rfl, keyFind_keyUpsert_ne FileInfo.path rfl hne.symm s.2⟩
  | download q =>
    simp only [Action.pathOf] at hne
    simp only [applyAction]
    cases hr : remoteFind s.2 q with
    | none => exact ⟨rfl, rfl⟩
    | some rf =>
      dsimp only
      exact ⟨keyFind_keyUpsert_ne LocalFile.path rfl hne.symm s.1, rfl⟩
  | deleteLocal q =>
    simp only [Action.pathOf] at hne
    exact ⟨keyFind_keyRemove_ne LocalFile.path hne.symm, rfl⟩
  | deleteRemote q =>
    simp only [Action.pathOf] at hne
    exact ⟨rfl, keyFind_keyRemove_ne FileInfo.path hne.symm⟩

theorem applyActions_frame {now : Int} {acts : List Action} {p : String}
    (h : ∀ a ∈ acts, a.pathOf ≠ p) :
    ∀ s : List LocalFile × List FileInfo,
      localLookup (applyActions now s acts).1 p = localLookup s.1 p ∧
      remoteFind (applyActions now s acts).2 p = remoteFind s.2 p := by
  induction acts with
  | nil => exact fun s => ⟨rfl, rfl⟩
  | cons a acts ih =>
    intro s
    have ha : a.pathOf ≠ p := h a (List.mem_cons_self a acts)
    have hrest := ih (fun b hb => h b (List.mem_cons_of_mem a hb))
    unfold applyActions
    rw [List.foldl_cons]
    obtain ⟨hl1, hr1⟩ := @applyAction_frame now s a p ha
    obtain ⟨hl2, hr2⟩ := hrest (applyAction now s a)
    unfold applyActions at hl2 hr2
    exact ⟨hl2.trans hl1, hr2.trans hr1⟩

theorem applyAction_upload_effect {now : Int}
    {s : List LocalFile × List FileInfo} {p : String} {f : LocalFile}
    (hl : localLookup s.1 p = some f) :
    localLookup (applyAction now s (Action.upload p)).1 p = some f ∧
    remoteFind (applyAction now s (Action.upload p)).2 p =
      some { path := p, hash := f.hash, size := 0, modTime := now } := by
  constructor
  · simp only [applyAction, hl]
  · simp only [applyAction, hl]
    exact keyFind_keyUpsert_self FileInfo.path rfl s.2

theorem applyAction_download_effect {now : Int}
    {s : List LocalFile × List FileInfo} {p : String} {rf : FileInfo}
    (hr : remoteFind s.2 p = some rf) :
    localLookup (applyAction now s (Action.download p)).1 p =
      some { path := p, hash := rf.hash, modTime := now } ∧
    remoteFind (applyAction now s (Action.download p)).2 p = remoteFind s.2 p := by
  constructor
  · simp only [applyAction, hr]
    exact keyFind_keyUpsert_self LocalFile.path rfl s.1
  · simp only [applyAction, hr]

theorem applyAction_deleteLocal_effect {now : Int}
    {s : List LocalFile × List FileInfo} {p : String} :
    localLookup (applyAction now s (Action.deleteLocal p)).1 p = none ∧
    remoteFind (applyAction now s (Action.deleteLocal p)).2 p =
      remoteFind s.2 p :=
  ⟨keyFind_keyRemove_self LocalFile.path s.1 p, rfl⟩

theorem applyAction_deleteRemote_effect {now : Int}
    {s : List LocalFile × List FileInfo} {p : String} :
    localLookup (applyAction now s (Action.deleteRemote p)).1 p =
      localLookup s.1 p ∧
    remoteFind (applyAction now s (Action.deleteRemote p)).2 p = none :=
  ⟨rfl, keyFind_keyRemove_self FileInfo.path s.2 p⟩

theorem applyAction_nodup {now : Int} {s : List LocalFile × List FileInfo}
    {a : Action} (h1 : (s.1.map LocalFile.path).Nodup)
    (h2 : (s.2.map FileInfo.path).Nodup) :
    ((applyAction now s a).1.map LocalFile.path).Nodup ∧
    ((applyAction now s a).2.map FileInfo.path).Nodup := by
  cases a with
  | upload p =>
    simp only [applyAction]
    cases hl : localLookup s.1 p with
    | none => exact ⟨h1, h2⟩
    | some f =>
      dsimp only
      exact ⟨h1, keyUpsert_nodup FileInfo.path rfl h2⟩
  | download p =>
    simp only [applyAction]
    cases hr : remoteFind s.2 p with
    | none => exact ⟨h1, h2⟩
    | some rf =>
      dsimp only
      exact ⟨keyUpsert_nodup LocalFile.path rfl h1, h2⟩
  | deleteLocal p => exact ⟨keyRemove_nodup LocalFile.path h1 p, h2⟩
  | deleteRemote p => exact ⟨h1, keyRemove_nodup FileInfo.path h2 p⟩

theorem applyActions_nodup {now : Int} {acts : List Action} :
    ∀ {s : List LocalFile × List FileInfo},
      (s.1.map LocalFile.path).Nodup → (s.2.map FileInfo.path).Nodup →
      ((applyActions now s acts).1.map LocalFile.path).Nodup ∧
      ((applyActions now s acts).2.map FileInfo.path).Nodup := by
  induction acts with
  | nil => exact fun h1 h2 => ⟨h1, h2⟩
  | cons a acts ih =>
    intro s h1 h2
    obtain ⟨h1a, h2a⟩ := @applyAction_nodup now s a h1 h2
    unfold applyActions
    rw [List.foldl_cons]
    exact ih h1a h2a

theorem mem_iff_localLookup {dir : List LocalFile}
    (hnd : (dir.map LocalFile.path).Nodup) {f : LocalFile} :
    f ∈ dir ↔ localLookup dir f.path = some f :=
  ⟨keyFind_of_mem LocalFile.path hnd, fun h => (keyFind_eq_some LocalFile.path h).1⟩

theorem mem_iff_remoteFind {remote : List FileInfo}
    (hnd : (remote.map FileInfo.path).Nodup) {rf : FileInfo} :
    rf ∈ remote ↔ remoteFind remote rf.path = some rf :=
  ⟨keyFind_of_mem FileInfo.path hnd, fun h => (keyFind_eq_some FileInfo.path h).1⟩

/-! ### Locating a path's unique action inside a trace -/

theorem eligible_path_eq {filter : Option (String → Bool)} {f g : LocalFile}
    (h : f.path = g.path) : eligible filter f = eligible filter g := by
  unfold eligible
  rw [h]

theorem walkActs_path_mem_seen {filter : Option (String → Bool)}
    {tombs : Option (List Tombstone)} {remote : List FileInfo}
    {dirFiles : List LocalFile} {a : Action}
    (ha : a ∈ walkActs filter tombs remote dirFiles) :
    a.pathOf ∈ seenPaths filter dirFiles := by
  rcases mem_walkActs.mp ha with ⟨f, hf, he, hfa⟩
  rw [fileActs_pathOf hfa]
  exact mem_seenPaths.mpr ⟨f, hf, he, rfl⟩

/-- Splitting a keyed list at a member under path-nodup: everything beside
it has a different key. -/
theorem split_at_nodup {α : Type} (key : α → String) {l : List α}
    (hnd : (l.map key).Nodup) {x : α} (hx : x ∈ l) :
    ∃ l1 l2, l = l1 ++ x :: l2 ∧ (∀ y ∈ l1, key y ≠ key x) ∧
      (∀ y ∈ l2, key y ≠ key x) := by
  obtain ⟨l1, l2, rfl⟩ := List.mem_iff_append.mp hx
  refine ⟨l1, l2, rfl, ?_, ?_⟩
  · intro y hy he
    have hmap : ((l1.map key) ++ key x :: l2.map key).Nodup := by
      simpa using hnd
    have hdisj := List.disjoint_of_nodup_append hmap
    exact hdisj (he ▸ List.mem_map_of_mem key hy)
      (List.mem_cons_self (key x) (l2.map key))
  · intro y hy he
    have hmap : ((l1.map key) ++ key x :: l2.map key).Nodup := by
      simpa using hnd
    have hcons := (List.nodup_append.mp hmap).2.1
    rcases List.nodup_cons.mp hcons with ⟨hnx, _⟩
    exact hnx (he ▸ List.mem_map_of_mem key hy)

/-- Splitting the walk trace at an eligible file's own actions. -/
theorem walkActs_split {filter : Option (String → Bool)}
    {tombs : Option (List Tombstone)} {remote : List FileInfo}
    {dirFiles : List LocalFile} (hndl : (dirFiles.map LocalFile.path).Nodup)
    {f : LocalFile} (hf : f ∈ dirFiles) (helig : eligible filter f = true) :
    ∃ l1 l2, walkActs filter tombs remote dirFiles =
        l1 ++ (fileActs filter tombs remote f ++ l2) ∧
      (∀ b ∈ l1, b.pathOf ≠ f.path) ∧ (∀ b ∈ l2, b.pathOf ≠ f.path) := by
  have hfl : f ∈ dirFiles.filter (eligible filter) :=
    List.mem_filter.mpr ⟨hf, helig⟩
  have hndf : ((dirFiles.filter (eligible filter)).map LocalFile.path).Nodup :=
    List.Sublist.nodup
      (List.Sublist.map LocalFile.path (List.filter_sublist dirFiles)) hndl
  obtain ⟨u1, u2, hsplit, h1, h2⟩ := split_at_nodup LocalFile.path hndf hfl
  refine ⟨u1.flatMap (fileActs filter tombs remote),
    u2.flatMap (fileActs filter tombs remote), ?_, ?_, ?_⟩
  · unfold walkActs
    rw [hsplit]
    simp [List.flatMap_append]
  · intro b hb
    obtain ⟨g, hg, hbg⟩ := List.mem_flatMap.mp hb
    rw [fileActs_pathOf hbg]
    exact h1 g hg
  · intro b hb
    obtain ⟨g, hg, hbg⟩ := List.mem_flatMap.mp hb
    rw [fileActs_pathOf hbg]
    exact h2 g hg

/-- The four shapes of a file's actions, with the remote lookup facts each
shape implies. -/
theorem fileActs_shape (filter : Option (String → Bool))
    (tombs : Option (List Tombstone)) (remote : List FileInfo) (f : LocalFile) :
    fileActs filter tombs remote f = [] ∨
    fileActs filter tombs remote f = [Action.upload f.path] ∨
    ((∃ rf, remoteLookup remote f.path = some rf ∧ rf.hash ≠ f.hash) ∧
      fileActs filter tombs remote f = [Action.download f.path]) ∨
    (remoteLookup remote f.path = none ∧
      fileActs filter tombs remote f = [Action.deleteLocal f.path]) := by
  unfold fileActs
  cases hr : remoteLookup remote f.path with
  | none =>
    cases filter with
    | some flt =>
      dsimp only
      exact Or.inr (Or.inl rfl)
    | none =>
      cases tombs with
      | none =>
        dsimp only
        exact Or.inr (Or.inl rfl)
      | some ts =>
        dsimp only
        cases tombLookup ts f.path with
        | none => exact Or.inr (Or.inl rfl)
        | some t =>
          dsimp only
          by_cases hlt : f.modTime < t.deletedAt
          · rw [if_pos hlt]
            exact Or.inr (Or.inr (Or.inr ⟨rfl, rfl⟩))
          · rw [if_neg hlt]
            exact Or.inr (Or.inl rfl)
  | some rf =>
    dsimp only
    by_cases hh : rf.hash ≠ f.hash
    · rw [if_pos hh]
      cases filter with
      | some flt => exact Or.inr (Or.inl rfl)
      | none =>
        by_cases hm : rf.modTime < f.modTime
        · rw [if_pos hm]
          exact Or.inr (Or.inl rfl)
        · rw [if_neg hm]
          exact Or.inr (Or.inr (Or.inl ⟨⟨rf, rfl, hh⟩, rfl⟩))
    · rw [if_neg hh]
      exact Or.inl rfl

/-- Lookups through a trace whose flanks avoid the path reduce to the
middle segment applied to the initial state. -/
theorem applyActions_tri {now : Int} {s : List LocalFile × List FileInfo}
    {l1 mid l2 : List Action} {p : String}
    (h1 : ∀ b ∈ l1, b.pathOf ≠ p) (h2 : ∀ b ∈ l2, b.pathOf ≠ p) :
    localLookup (applyActions now s (l1 ++ (mid ++ l2))).1 p =
      localLookup (applyActions now (applyActions now s l1) mid).1 p ∧
    remoteFind (applyActions now s (l1 ++ (mid ++ l2))).2 p =
      remoteFind (applyActions now (applyActions now s l1) mid).2 p ∧
    localLookup (applyActions now s l1).1 p = localLookup s.1 p ∧
    remoteFind (applyActions now s l1).2 p = remoteFind s.2 p := by
  have e : applyActions now s (l1 ++ (mid ++ l2)) =
      applyActions now (applyActions now (applyActions now s l1) mid) l2 := by
    unfold applyActions
    rw [List.foldl_append, List.foldl_append]
  obtain ⟨ha, hb⟩ := applyActions_frame h2 (applyActions now (applyActions now s l1) mid)
  obtain ⟨hc, hd⟩ := applyActions_frame h1 s
  exact ⟨by rw [e]; exact ha, by rw [e]; exact hb, hc, hd⟩

/-- Effect of the whole walk trace on the state, at an eligible file's own
path: the file's single action determines the state there, the rest of the
walk cannot touch it. -/
theorem walk_effect {now : Int} {dirFiles : List LocalFile}
    {remote : List FileInfo} {tombs : Option (List Tombstone)}
    {filter : Option (String → Bool)}
    (hndl : (dirFiles.map LocalFile.path).Nodup)
    (hndr : (remote.map FileInfo.path).Nodup)
    {f : LocalFile} (hf : f ∈ dirFiles) (helig : eligible filter f = true) :
    (localLookup (applyActions now (dirFiles, remote)
        (walkActs filter tombs remote dirFiles)).1 f.path = some f ∧
      remoteFind (applyActions now (dirFiles, remote)
        (walkActs filter tombs remote dirFiles)).2 f.path =
        remoteFind remote f.path ∧
      (∃ rf, remoteFind remote f.path = some rf ∧ rf.hash = f.hash) ∧
      fileActs filter tombs remote f = []) ∨
    (localLookup (applyActions now (dirFiles, remote)
        (walkActs filter tombs remote dirFiles)).1 f.path = some f ∧
      remoteFind (applyActions now (dirFiles, remote)
        (walkActs filter tombs remote dirFiles)).2 f.path =
        some { path := f.path, hash := f.hash, size := 0, modTime := now }) ∨
    (∃ rf, remoteFind remote f.path = some rf ∧
      localLookup (applyActions now (dirFiles, remote)
        (walkActs filter tombs remote dirFiles)).1 f.path =
        some { path := f.path, hash := rf.hash, modTime := now } ∧
      remoteFind (applyActions now (dirFiles, remote)
        (walkActs filter tombs remote dirFiles)).2 f.path = some rf) ∨
    (remoteFind remote f.path = none ∧
      localLookup (applyActions now (dirFiles, remote)
        (walkActs filter tombs remote dirFiles)).1 f.path = none ∧
      remoteFind (applyActions now (dirFiles, remote)
        (walkActs filter tombs remote dirFiles)).2 f.path = none) := by
  obtain ⟨l1, l2, hsplit, h1, h2⟩ := walkActs_split hndl hf helig
  have hLf : localLookup dirFiles f.path = some f :=
    keyFind_of_mem LocalFile.path hndl hf
  obtain ⟨hA, hB, hC, hD⟩ :=
    @applyActions_tri now (dirFiles, remote) l1 (fileActs filter tombs remote f)
      l2 f.path h1 h2
  rw [hsplit]
  rcases fileActs_shape filter tombs remote f with hsh | hsh | ⟨⟨rf, hrf, hh⟩, hsh⟩ |
      ⟨hrn, hsh⟩
  · -- no action: hash match
    have hmid : applyActions now (applyActions now (dirFiles, remote) l1)
        (fileActs filter tombs remote f) =
        applyActions now (dirFiles, remote) l1 := by
      rw [hsh]
      rfl
    refine Or.inl ⟨?_, ?_, ?_, hsh⟩
    · rw [hA, hmid, hC]
      exact hLf
    · rw [hB, hmid, hD]
    · -- the empty shape only arises when the hashes agree
      unfold fileActs at hsh
      rw [remoteLookup_eq_remoteFind hndr] at hsh
      cases hr : remoteFind remote f.path with
      | none =>
        rw [hr] at hsh
        cases filter with
        | some flt => simp at hsh
        | none =>
          cases tombs with
          | none => simp at hsh
          | some ts =>
            dsimp only at hsh
            rcases htl : tombLookup ts f.path with _ | t
            · rw [htl] at hsh
              simp at hsh
            · rw [htl] at hsh
              dsimp only at hsh
              by_cases hlt : f.modTime < t.deletedAt
              · rw [if_pos hlt] at hsh
                simp at hsh
              · rw [if_neg hlt] at hsh
                simp at hsh
      | some rf =>
        rw [hr] at hsh
        dsimp only at hsh
        by_cases hh : rf.hash ≠ f.hash
        · rw [if_pos hh] at hsh
          cases filter with
          | some flt => simp at hsh
          | none =>
            by_cases hm : rf.modTime < f.modTime
            · rw [if_pos hm] at hsh
              simp at hsh
            · rw [if_neg hm] at hsh
              simp at hsh
        · exact ⟨rf, rfl, not_ne_iff.mp hh⟩
  · -- upload
    have hbase : localLookup (applyActions now (dirFiles, remote) l1).1 f.path =
        some f := by rw [hC]; exact hLf
    have hmid := @applyAction_upload_effect now
      (applyActions now (dirFiles, remote) l1) f.path f hbase
    have hone : applyActions now (applyActions now (dirFiles, remote) l1)
        (fileActs filter tombs remote f) =
        applyAction now (applyActions now (dirFiles, remote) l1)
          (Action.upload f.path) := by
      rw [hsh]
      rfl
    refine Or.inr (Or.inl ⟨?_, ?_⟩)
    · rw [hA, hone]
      exact hmid.1
    · rw [hB, hone]
      exact hmid.2
  · -- download
    have hrfF : remoteFind remote f.path = some rf := by
      rw [← remoteLookup_eq_remoteFind hndr]
      exact hrf
    have hbase : remoteFind (applyActions now (dirFiles, remote) l1).2 f.path =
        some rf := by rw [hD]; exact hrfF
    have hmid := @applyAction_download_effect now
      (applyActions now (dirFiles, remote) l1) f.path rf hbase
    have hone : applyActions now (applyActions now (dirFiles, remote) l1)
        (fileActs filter tombs remote f) =
        applyAction now (applyActions now (dirFiles, remote) l1)
          (Action.download f.path) := by
      rw [hsh]
      rfl
    refine Or.inr (Or.inr (Or.inl ⟨rf, hrfF, ?_, ?_⟩))
    · rw [hA, hone]
      exact hmid.1
    · rw [hB, hone, hmid.2, hbase]
  · -- tombstone-triggered local delete
    have hrnF : remoteFind remote f.path = none := by
      rw [← remoteLookup_eq_remoteFind hndr]
      exact hrn
    have hone : applyActions now (applyActions now (dirFiles, remote) l1)
        (fileActs filter tombs remote f) =
        applyAction now (applyActions now (dirFiles, remote) l1)
          (Action.deleteLocal f.path) := by
      rw [hsh]
      rfl
    have hmid := @applyAction_deleteLocal_effect now
      (applyActions now (dirFiles, remote) l1) f.path
    refine Or.inr (Or.inr (Or.inr ⟨hrnF, ?_, ?_⟩))
    · rw [hA, hone]
      exact hmid.1
    · rw [hB, hone, hmid.2, hD]
      exact hrnF

/-- Splitting the publish post-walk trace at one remote record's delete. -/
theorem postWalk_publish_split {pushOnly : Bool} {remote : List FileInfo}
    {seen : List String} (hndr : (remote.map FileInfo.path).Nodup)
    {rf : FileInfo} (hrf : rf ∈ remote) (hns : rf.path ∉ seen) :
    ∃ l1 l2, postWalk true pushOnly remote seen =
        l1 ++ Action.deleteRemote rf.path :: l2 ∧
      (∀ b ∈ l1, b.pathOf ≠ rf.path) ∧ (∀ b ∈ l2, b.pathOf ≠ rf.path) := by
  have hcontains : (!seen.contains rf.path) = true := by
    simp [List.elem_iff]
    exact hns
  have hfl : rf ∈ remote.filter (fun x => !seen.contains x.path) :=
    List.mem_filter.mpr ⟨hrf, hcontains⟩
  have hndf :
      ((remote.filter (fun x => !seen.contains x.path)).map FileInfo.path).Nodup :=
    List.Sublist.nodup
      (List.Sublist.map FileInfo.path (List.filter_sublist remote)) hndr
  obtain ⟨v1, v2, hsplit, hv1, hv2⟩ := split_at_nodup FileInfo.path hndf hfl
  refine ⟨v1.map (fun x => Action.deleteRemote x.path),
    v2.map (fun x => Action.deleteRemote x.path), ?_, ?_, ?_⟩
  · show (remote.filter (fun x => !seen.contains x.path)).map
        (fun x => Action.deleteRemote x.path) = _
    rw [hsplit, List.map_append, List.map_cons]
  · intro b hb
    obtain ⟨x, hx, hbx⟩ := List.mem_map.mp hb
    rw [← hbx]
    simpa [Action.pathOf] using hv1 x hx
  · intro b hb
    obtain ⟨x, hx, hbx⟩ := List.mem_map.mp hb
    rw [← hbx]
    simpa [Action.pathOf] using hv2 x hx

/-- Splitting the private post-walk download trace at one remote record. -/
theorem postWalk_private_split {remote : List FileInfo} {seen : List String}
    (hndr : (remote.map FileInfo.path).Nodup)
    {rf : FileInfo} (hrf : rf ∈ remote) (hns : rf.path ∉ seen)
    (hsync : isSyncableExt rf.path = true) :
    ∃ l1 l2, postWalk false false remote seen =
        l1 ++ Action.download rf.path :: l2 ∧
      (∀ b ∈ l1, b.pathOf ≠ rf.path) ∧ (∀ b ∈ l2, b.pathOf ≠ rf.path) := by
  have hcond : (!seen.contains rf.path && isSyncableExt rf.path) = true := by
    simp [List.elem_iff, hsync]
    exact hns
  have hfl : rf ∈ remote.filter
      (fun x => !seen.contains x.path && isSyncableExt x.path) :=
    List.mem_filter.mpr ⟨hrf, hcond⟩
  have hndf : ((remote.filter
      (fun x => !seen.contains x.path && isSyncableExt x.path)).map
        FileInfo.path).Nodup :=
    List.Sublist.nodup
      (List.Sublist.map FileInfo.path (List.filter_sublist remote)) hndr
  obtain ⟨v1, v2, hsplit, hv1, hv2⟩ := split_at_nodup FileInfo.path hndf hfl
  refine ⟨v1.map (fun x => Action.download x.path),
    v2.map (fun x => Action.download x.path), ?_, ?_, ?_⟩
  · show (remote.filter
        (fun x => !seen.contains x.path && isSyncableExt x.path)).map
        (fun x => Action.download x.path) = _
    rw [hsplit, List.map_append, List.map_cons]
  · intro b hb
    obtain ⟨x, hx, hbx⟩ := List.mem_map.mp hb
    rw [← hbx]
    simpa [Action.pathOf] using hv1 x hx
  · intro b hb
    obtain ⟨x, hx, hbx⟩ := List.mem_map.mp hb
    rw [← hbx]
    simpa [Action.pathOf] using hv2 x hx

/-- Effect of the post-walk phase at a path not seen locally. -/
theorem post_effect {now : Int} {s1 : List LocalFile × List FileInfo}
    {remote : List FileInfo} {seen : List String}
    (hndr : (remote.map FileInfo.path).Nodup)
    {p : String} (hp : p ∉ seen)
    (hrem : remoteFind s1.2 p = remoteFind remote p) :
    (∀ pushOnly,
      localLookup (applyActions now s1 (postWalk true pushOnly remote seen)).1 p =
        localLookup s1.1 p ∧
      remoteFind (applyActions now s1 (postWalk true pushOnly remote seen)).2 p =
        none) ∧
    ((∀ rf, remoteFind remote p = some rf → isSyncableExt p = true →
      localLookup (applyActions now s1 (postWalk false false remote seen)).1 p =
        some { path := p, hash := rf.hash, modTime := now } ∧
      remoteFind (applyActions now s1 (postWalk false false remote seen)).2 p =
        some rf) ∧
     ((remoteFind remote p = none ∨ isSyncableExt p = false) →
      localLookup (applyActions now s1 (postWalk false false remote seen)).1 p =
        localLookup s1.1 p ∧
      remoteFind (applyActions now s1 (postWalk false false remote seen)).2 p =
        remoteFind s1.2 p)) := by
  refine ⟨?_, ?_, ?_⟩
  · intro pushOnly
    cases hr : remoteFind remote p with
    | none =>
      have hno : ∀ b ∈ postWalk true pushOnly remote seen, b.pathOf ≠ p := by
        intro b hb hbp
        rcases mem_postWalk.mp hb with ⟨_, rf', hrf', _, hbe⟩ | ⟨hfalse, _⟩
        · have : remoteFind remote rf'.path = some rf' :=
            keyFind_of_mem FileInfo.path hndr hrf'
          rw [← hbe] at hbp
          simp only [Action.pathOf] at hbp
          rw [hbp] at this
          rw [hr] at this
          exact absurd this (by simp)
        · simp at hfalse
      obtain ⟨hl, hr2⟩ := applyActions_frame hno s1
      exact ⟨hl, by rw [hr2, hrem, hr]⟩
    | some rf =>
      obtain ⟨hprf, hppath⟩ := keyFind_eq_some FileInfo.path hr
      obtain ⟨l1, l2, hsplit, h1, h2⟩ :=
        postWalk_publish_split hndr hprf (hppath.symm ▸ hp)
      rw [hppath] at hsplit h1 h2
      rw [hsplit]
      have e : l1 ++ Action.deleteRemote p :: l2 =
          l1 ++ ([Action.deleteRemote p] ++ l2) := by simp
      rw [e]
      obtain ⟨hA, hB, hC, hD⟩ :=
        @applyActions_tri now s1 l1 [Action.deleteRemote p] l2 p h1 h2
      have hone : applyActions now (applyActions now s1 l1)
          [Action.deleteRemote p] =
          applyAction now (applyActions now s1 l1) (Action.deleteRemote p) := rfl
      have heff := @applyAction_deleteRemote_effect now (applyActions now s1 l1) p
      constructor
      · rw [hA, hone, heff.1, hC]
      · rw [hB, hone, heff.2]
  · intro rf hr hsync
    obtain ⟨hprf, hppath⟩ := keyFind_eq_some FileInfo.path hr
    obtain ⟨l1, l2, hsplit, h1, h2⟩ :=
      postWalk_private_split hndr hprf (hppath.symm ▸ hp) (hppath.symm ▸ hsync)
    rw [hppath] at hsplit h1 h2
    rw [hsplit]
    have e : l1 ++ Action.download p :: l2 =
        l1 ++ ([Action.download p] ++ l2) := by simp
    rw [e]
    obtain ⟨hA, hB, hC, hD⟩ :=
      @applyActions_tri now s1 l1 [Action.download p] l2 p h1 h2
    have hbase : remoteFind (applyActions now s1 l1).2 p = some rf := by
      rw [hD, hrem]
      exact hr
    have hone : applyActions now (applyActions now s1 l1) [Action.download p] =
        applyAction now (applyActions now s1 l1) (Action.download p) := rfl
    have heff := @applyAction_download_effect now (applyActions now s1 l1) p rf hbase
    constructor
    · rw [hA, hone]
      exact heff.1
    · rw [hB, hone, heff.2, hbase]
  · intro hcase
    have hno : ∀ b ∈ postWalk false false remote seen, b.pathOf ≠ p := by
      intro b hb hbp
      rcases mem_postWalk.mp hb with ⟨htrue, _⟩ | ⟨_, _, rf', hrf', _, hsync', hbe⟩
      · simp at htrue
      · have hfind : remoteFind remote rf'.path = some rf' :=
          keyFind_of_mem FileInfo.path hndr hrf'
        rw [← hbe] at hbp
        simp only [Action.pathOf] at hbp
        rw [hbp] at hfind hsync'
        rcases hcase with hnone | hnsync
        · rw [hnone] at hfind
          exact absurd hfind (by simp)
        · rw [hnsync] at hsync'
          exact absurd hsync' (by simp)
    exact applyActions_frame hno s1

/-- A file whose remote copy has the same digest produces no action. -/
theorem fileActs_nil {filter : Option (String → Bool)}
    {tombs : Option (List Tombstone)} {rem : List FileInfo} {f : LocalFile}
    {rf : FileInfo} (h : remoteLookup rem f.path = some rf)
    (hh : rf.hash = f.hash) : fileActs filter tombs rem f = [] := by
  unfold fileActs
  rw [h]
  dsimp only
  rw [if_neg (fun hne => hne hh)]

/-- C4: after a full reconciliation pass whose actions have been applied to
both sides, a second pass over the resulting local tree and remote listing
performs zero upload, download, and delete actions. -/
theorem c4_idempotent {dirFiles : List LocalFile} {remote : List FileInfo}
    {tombs : Option (List Tombstone)} {filter : Option (String → Bool)}
    {pushOnly : Bool} {acts : List Action} (now : Int)
    (hndl : (dirFiles.map LocalFile.path).Nodup)
    (hndr : (remote.map FileInfo.path).Nodup)
    (hrun : fullSyncClient dirFiles remote tombs filter pushOnly noFailures =
      .ok acts) :
    fullSyncClient (applyActions now (dirFiles, remote) acts).1
      (applyActions now (dirFiles, remote) acts).2 tombs filter pushOnly
      noFailures = .ok [] := by
  rw [fullSyncClient_noFailures] at hrun
  have hacts : acts = runSync dirFiles remote tombs filter pushOnly :=
    (Except.ok.inj hrun).symm
  subst hacts
  rw [fullSyncClient_noFailures]
  have hnd' := @applyActions_nodup now
    (runSync dirFiles remote tombs filter pushOnly) (dirFiles, remote) hndl hndr
  have hdecomp : applyActions now (dirFiles, remote)
      (runSync dirFiles remote tombs filter pushOnly) =
      applyActions now
        (applyActions now (dirFiles, remote)
          (walkActs filter tombs remote dirFiles))
        (postWalk filter.isSome pushOnly remote (seenPaths filter dirFiles)) := by
    unfold runSync applyActions
    rw [List.foldl_append]
  -- Every final eligible local file matches the final remote record.
  have oblA : ∀ f' ∈ (applyActions now (dirFiles, remote)
      (runSync dirFiles remote tombs filter pushOnly)).1,
      eligible filter f' = true →
      fileActs filter tombs (applyActions now (dirFiles, remote)
        (runSync dirFiles remote tombs filter pushOnly)).2 f' = [] := by
    intro f' hf' helig'
    have hlook' : localLookup (applyActions now (dirFiles, remote)
        (runSync dirFiles remote tombs filter pushOnly)).1 f'.path = some f' :=
      keyFind_of_mem LocalFile.path hnd'.1 hf'
    by_cases hseen : f'.path ∈ seenPaths filter dirFiles
    · obtain ⟨f, hf, heligf, hfp⟩ := mem_seenPaths.mp hseen
      have hnop : ∀ b ∈ postWalk filter.isSome pushOnly remote
          (seenPaths filter dirFiles), b.pathOf ≠ f'.path := by
        intro b hb hbp
        exact (postWalk_path_not_seen hb) (by rw [hbp]; exact hseen)
      obtain ⟨hpfl, hpfr⟩ := applyActions_frame hnop
        (applyActions now (dirFiles, remote)
          (walkActs filter tombs remote dirFiles))
      rw [hdecomp] at hlook' ⊢
      have hnd2 : (((applyActions now (applyActions now (dirFiles, remote)
          (walkActs filter tombs remote dirFiles))
          (postWalk filter.isSome pushOnly remote
            (seenPaths filter dirFiles))).2).map FileInfo.path).Nodup := by
        rw [← hdecomp]
        exact hnd'.2
      rw [hpfl] at hlook'
      rcases @walk_effect now dirFiles remote tombs filter hndl hndr f hf
          heligf with
          ⟨hL, hR, ⟨rf, hrf, hhash⟩, _⟩ | ⟨hL, hR⟩ | ⟨rf, hrf, hL, hR⟩ |
          ⟨hrn, hL, hR⟩
      · rw [hfp] at hL hR hrf
        have hff : f = f' := Option.some.inj (hL.symm.trans hlook')
        refine @fileActs_nil filter tombs _ f' rf ?_ ?_
        · rw [remoteLookup_eq_remoteFind hnd2, hpfr, hR]
          exact hrf
        · rw [← hff]
          exact hhash
      · rw [hfp] at hL hR
        have hff : f = f' := Option.some.inj (hL.symm.trans hlook')
        refine @fileActs_nil filter tombs _ f'
          { path := f'.path, hash := f.hash, size := 0, modTime := now } ?_ ?_
        · rw [remoteLookup_eq_remoteFind hnd2, hpfr, hR]
        · rw [← hff]
      · rw [hfp] at hL hR
        have hff : ({ path := f'.path, hash := rf.hash, modTime := now } :
            LocalFile) = f' := Option.some.inj (hL.symm.trans hlook')
        refine @fileActs_nil filter tombs _ f' rf ?_ ?_
        · rw [remoteLookup_eq_remoteFind hnd2, hpfr, hR]
        · rw [← hff]
      · rw [hfp] at hL
        rw [hL] at hlook'
        exact absurd hlook' (by simp)
    · -- the path was not walked: only a private non-push-only download can
      -- have put an eligible file there, and then the digests agree
      have hnow : ∀ b ∈ walkActs filter tombs remote dirFiles,
          b.pathOf ≠ f'.path := by
        intro b hb hbp
        exact hseen (by rw [← hbp]; exact walkActs_path_mem_seen hb)
      obtain ⟨hwl, hwr⟩ := applyActions_frame hnow (dirFiles, remote)
      have hcontra : localLookup (applyActions now (dirFiles, remote)
          (runSync dirFiles remote tombs filter pushOnly)).1 f'.path =
          localLookup dirFiles f'.path → False := by
        intro he
        rw [hlook'] at he
        obtain ⟨hmem, _⟩ := keyFind_eq_some LocalFile.path he.symm
        exact hseen (mem_seenPaths.mpr ⟨f', hmem, helig', rfl⟩)
      have hpe := @post_effect now
        (applyActions now (dirFiles, remote)
          (walkActs filter tombs remote dirFiles))
        remote (seenPaths filter dirFiles) hndr f'.path hseen hwr
      cases filter with
      | some flt =>
        exact (hcontra (by
          rw [hdecomp]
          exact ((hpe.1 pushOnly).1).trans hwl)).elim
      | none =>
        cases hpo : pushOnly with
        | true =>
          subst hpo
          exact (hcontra (by
            rw [hdecomp]
            exact hwl)).elim
        | false =>
          subst hpo
          have hsyncp : isSyncableExt f'.path = true := by
            simpa [eligible] using helig'
          cases hr : remoteFind remote f'.path with
          | some rf =>
            obtain ⟨hdl, hdr⟩ := hpe.2.1 rf hr hsyncp
            have hdec2 : applyActions now (dirFiles, remote)
                (runSync dirFiles remote tombs none false) =
                applyActions now
                  (applyActions now (dirFiles, remote)
                    (walkActs none tombs remote dirFiles))
                  (postWalk false false remote (seenPaths none dirFiles)) :=
              hdecomp
            rw [hdec2] at hlook' ⊢
            have hnd2 : (((applyActions now (applyActions now (dirFiles, remote)
                (walkActs none tombs remote dirFiles))
                (postWalk false false remote
                  (seenPaths none dirFiles))).2).map FileInfo.path).Nodup := by
              rw [← hdec2]
              exact hnd'.2
            have hff : ({ path := f'.path, hash := rf.hash, modTime := now } :
                LocalFile) = f' := Option.some.inj (hdl.symm.trans hlook')
            refine @fileActs_nil none tombs _ f' rf ?_ ?_
            · rw [remoteLookup_eq_remoteFind hnd2]
              exact hdr
            · rw [← hff]
          | none =>
            obtain ⟨hdl, hdr⟩ := hpe.2.2 (Or.inl hr)
            exact (hcontra (by
              rw [hdecomp]
              exact hdl.trans hwl)).elim
  -- Every final remote record that the second post-walk would consider is
  -- mirrored by a final eligible local file.
  have oblB : ∀ rf' ∈ (applyActions now (dirFiles, remote)
      (runSync dirFiles remote tombs filter pushOnly)).2,
      (filter.isSome = true ∨
        (pushOnly = false ∧ isSyncableExt rf'.path = true)) →
      rf'.path ∈ seenPaths filter (applyActions now (dirFiles, remote)
        (runSync dirFiles remote tombs filter pushOnly)).1 := by
    intro rf' hrf' hfc
    have hfind' : remoteFind (applyActions now (dirFiles, remote)
        (runSync dirFiles remote tombs filter pushOnly)).2 rf'.path =
        some rf' := keyFind_of_mem FileInfo.path hnd'.2 hrf'
    by_cases hseen : rf'.path ∈ seenPaths filter dirFiles
    · obtain ⟨f, hf, heligf, hfp⟩ := mem_seenPaths.mp hseen
      have hnop : ∀ b ∈ postWalk filter.isSome pushOnly remote
          (seenPaths filter dirFiles), b.pathOf ≠ rf'.path := by
        intro b hb hbp
        exact (postWalk_path_not_seen hb) (by rw [hbp]; exact hseen)
      obtain ⟨hpfl, hpfr⟩ := applyActions_frame hnop
        (applyActions now (dirFiles, remote)
          (walkActs filter tombs remote dirFiles))
      rw [hdecomp] at hfind' ⊢
      rw [hpfr] at hfind'
      have hmemof : ∀ g : LocalFile, g.path = rf'.path →
          localLookup (applyActions now (dirFiles, remote)
            (walkActs filter tombs remote dirFiles)).1 rf'.path = some g →
          rf'.path ∈ seenPaths filter (applyActions now
            (applyActions now (dirFiles, remote)
              (walkActs filter tombs remote dirFiles))
            (postWalk filter.isSome pushOnly remote
              (seenPaths filter dirFiles))).1 := by
        intro g hgp hgl
        have hgl2 : localLookup (applyActions now
            (applyActions now (dirFiles, remote)
              (walkActs filter tombs remote dirFiles))
            (postWalk filter.isSome pushOnly remote
              (seenPaths filter dirFiles))).1 rf'.path = some g := by
          rw [hpfl]
          exact hgl
        obtain ⟨hgmem, _⟩ := keyFind_eq_some LocalFile.path hgl2
        refine mem_seenPaths.mpr ⟨g, hgmem, ?_, hgp⟩
        rw [@eligible_path_eq filter g f (hgp.trans hfp.symm)]
        exact heligf
      rcases @walk_effect now dirFiles remote tombs filter hndl hndr f hf
          heligf with
          ⟨hL, _, _, _⟩ | ⟨hL, _⟩ | ⟨rf, _, hL, _⟩ | ⟨_, _, hR⟩
      · exact hmemof f hfp (by rw [hfp] at hL; exact hL)
      · exact hmemof f hfp (by rw [hfp] at hL; exact hL)
      · exact hmemof { path := rf'.path, hash := rf.hash, modTime := now } rfl
          (by rw [hfp] at hL; exact hL)
      · rw [hfp] at hR
        rw [hR] at hfind'
        exact absurd hfind' (by simp)
    · have hnow : ∀ b ∈ walkActs filter tombs remote dirFiles,
          b.pathOf ≠ rf'.path := by
        intro b hb hbp
        exact hseen (by rw [← hbp]; exact walkActs_path_mem_seen hb)
      obtain ⟨hwl, hwr⟩ := applyActions_frame hnow (dirFiles, remote)
      have hpe := @post_effect now
        (applyActions now (dirFiles, remote)
          (walkActs filter tombs remote dirFiles))
        remote (seenPaths filter dirFiles) hndr rf'.path hseen hwr
      cases filter with
      | some flt =>
        rw [hdecomp] at hfind'
        have hfind2 : remoteFind (applyActions now
            (applyActions now (dirFiles, remote)
              (walkActs (some flt) tombs remote dirFiles))
            (postWalk true pushOnly remote
              (seenPaths (some flt) dirFiles))).2 rf'.path = some rf' := hfind'
        rw [(hpe.1 pushOnly).2] at hfind2
        exact absurd hfind2 (by simp)
      | none =>
        rcases hfc with hfc | ⟨hpo, hsyncp⟩
        · simp at hfc
        subst hpo
        cases hr : remoteFind remote rf'.path with
        | some rf =>
          obtain ⟨hdl, hdr⟩ := hpe.2.1 rf hr hsyncp
          rw [hdecomp]
          have hdl2 : localLookup (applyActions now
              (applyActions now (dirFiles, remote)
                (walkActs none tombs remote dirFiles))
              (postWalk (Option.isSome (none : Option (String → Bool))) false
                remote (seenPaths none dirFiles))).1 rf'.path =
              some { path := rf'.path, hash := rf.hash, modTime := now } := hdl
          obtain ⟨hgmem, _⟩ := keyFind_eq_some LocalFile.path hdl2
          refine mem_seenPaths.mpr ⟨_, hgmem, ?_, rfl⟩
          simp [eligible, hsyncp]
        | none =>
          obtain ⟨hdl, hdr⟩ := hpe.2.2 (Or.inl hr)
          rw [hdecomp] at hfind'
          have hfind2 : remoteFind (applyActions now
              (applyActions now (dirFiles, remote)
                (walkActs none tombs remote dirFiles))
              (postWalk false false remote
                (seenPaths none dirFiles))).2 rf'.path = some rf' := hfind'
          rw [hdr, hwr, hr] at hfind2
          exact absurd hfind2 (by simp)
  -- Assemble both phases of the second run.
  have hwalk2 : walkActs filter tombs
      (applyActions now (dirFiles, remote)
        (runSync dirFiles remote tombs filter pushOnly)).2
      (applyActions now (dirFiles, remote)
        (runSync dirFiles remote tombs filter pushOnly)).1 = [] := by
    unfold walkActs
    refine List.bind_eq_nil.mpr ?_
    intro f' hf'
    obtain ⟨hmem, helig'⟩ := List.mem_filter.mp hf'
    exact oblA f' hmem helig'
  have hpost2 : postWalk filter.isSome pushOnly
      (applyActions now (dirFiles, remote)
        (runSync dirFiles remote tombs filter pushOnly)).2
      (seenPaths filter (applyActions now (dirFiles, remote)
        (runSync dirFiles remote tombs filter pushOnly)).1) = [] := by
    cases hfs : filter.isSome with
    | true =>
      show (List.map _ (List.filter _ _)) = []
      refine List.map_eq_nil_iff.mpr (List.filter_eq_nil_iff.mpr ?_)
      intro rf' hrf' hcond
      have hmem := oblB rf' hrf' (Or.inl hfs)
      have hcont : (seenPaths filter ((applyActions now (dirFiles, remote)
          (runSync dirFiles remote tombs filter pushOnly)).1)).contains
          rf'.path = true := List.elem_iff.mpr hmem
      rw [hcont] at hcond
      simp at hcond
    | false =>
      cases hpo : pushOnly with
      | true => rfl
      | false =>
        subst hpo
        show (List.map _ (List.filter _ _)) = []
        refine List.map_eq_nil_iff.mpr (List.filter_eq_nil_iff.mpr ?_)
        intro rf' hrf' hcond
        have hparts : (!(seenPaths filter ((applyActions now (dirFiles, remote)
            (runSync dirFiles remote tombs filter false)).1)).contains
            rf'.path) = true ∧ isSyncableExt rf'.path = true := by
          simpa using hcond
        have hmem := oblB rf' hrf' (Or.inr ⟨rfl, hparts.2⟩)
        have hcont : (seenPaths filter ((applyActions now (dirFiles, remote)
            (runSync dirFiles remote tombs filter false)).1)).contains
            rf'.path = true := List.elem_iff.mpr hmem
        have h1 := hparts.1
        rw [hcont] at h1
        simp at h1
  have hrs : runSync (applyActions now (dirFiles, remote)
      (runSync dirFiles remote tombs filter pushOnly)).1
      (applyActions now (dirFiles, remote)
        (runSync dirFiles remote tombs filter pushOnly)).2
      tombs filter pushOnly = [] := by
    show walkActs filter tombs
        (applyActions now (dirFiles, remote)
          (runSync dirFiles remote tombs filter pushOnly)).2
        (applyActions now (dirFiles, remote)
          (runSync dirFiles remote tombs filter pushOnly)).1 ++
      postWalk filter.isSome pushOnly
        (applyActions now (dirFiles, remote)
          (runSync dirFiles remote tombs filter pushOnly)).2
        (seenPaths filter (applyActions now (dirFiles, remote)
          (runSync dirFiles remote tombs filter pushOnly)).1) = []
    rw [hwalk2, hpost2]
    rfl
  rw [hrs]

/-- Closed witness for C4: a pass that uploads one new local file, once
applied, makes the second pass produce no actions. -/
theorem c4_witness :
    fullSyncClient
      (applyActions 10 ([{ path := "a.md", hash := "h1", modTime := 5 }], [])
        [Action.upload "a.md"]).1
      (applyActions 10 ([{ path := "a.md", hash := "h1", modTime := 5 }], [])
        [Action.upload "a.md"]).2 none none false noFailures =
      .ok [] :=
  @c4_idempotent [{ path := "a.md", hash := "h1", modTime := 5 }] [] none none
    false [Action.upload "a.md"] 10 (by decide) (by decide) (by rfl)

end NoteSync
